import Mathlib

/-!
# Verification of bitcaptcha core against its specification

Shallow embedding of the bitcaptcha widget's core algorithms:
the NIP-44 style authenticated encryption in `src/nwc/crypto.ts`
(bundled in `esbuild.config.mjs`), the preimage verification in
`src/payment/verify.ts`, the payment state machine in
`src/payment/state-machine.ts`, the NWC client's subscribe/publish
ordering in `src/nwc/client.ts`, and the widget's settlement polling in
`src/widget.ts`.

Byte strings are modelled as `List Nat` with every element `< 256`;
JavaScript strings are modelled as `List Char` (or as their UTF-8 byte
lists where only the bytes matter).  Fallible code returns `Except` or
`Option`.
-/

set_option maxRecDepth 100000

deriving instance DecidableEq for Except

namespace BitCaptcha

/-- Bytes are lists of naturals, kept `< 256` by construction. -/
abbrev Bytes := List Nat

/-- Truncation to 32 bits, the JavaScript `>>> 0` / `Uint32` discipline. -/
def u32 (n : Nat) : Nat := n % 4294967296

/-- 32-bit right rotation. -/
def rotr (k w : Nat) : Nat := u32 ((w >>> k) ||| (w <<< (32 - k)))

/-- 32-bit left rotation. -/
def rotl (k w : Nat) : Nat := u32 ((w <<< k) ||| (w >>> (32 - k)))

/-- 32-bit bitwise complement. -/
def compl32 (w : Nat) : Nat := 4294967295 ^^^ w

/-! ## SHA-256 (RFC 6234), as implemented by `@noble/hashes/sha256`

The repository's crypto module imports `sha256` from `@noble/hashes`; the
definitions below are the standard SHA-256 the library implements,
modelled over byte lists. -/

/-- SHA-256 round constants. -/
def sha256K : List Nat :=
  [1116352408, 1899447441, 3049323471, 3921009573, 961987163, 1508970993,
   2453635748, 2870763221, 3624381080, 310598401, 607225278, 1426881987,
   1925078388, 2162078206, 2614888103, 3248222580, 3835390401, 4022224774,
   264347078, 604807628, 770255983, 1249150122, 1555081692, 1996064986,
   2554220882, 2821834349, 2952996808, 3210313671, 3336571891, 3584528711,
   113926993, 338241895, 666307205, 773529912, 1294757372, 1396182291,
   1695183700, 1986661051, 2177026350, 2456956037, 2730485921, 2820302411,
   3259730800, 3345764771, 3516065817, 3600352804, 4094571909, 275423344,
   430227734, 506948616, 659060556, 883997877, 958139571, 1322822218,
   1537002063, 1747873779, 1955562222, 2024104815, 2227730452, 2361852424,
   2428436474, 2756734187, 3204031479, 3329325298]

/-- SHA-256 initial hash state. -/
def sha256H0 : List Nat :=
  [1779033703, 3144134277, 1013904242, 2773480762, 1359893119, 2600822924,
   528734635, 1541459225]

/-- Big-endian packing of bytes into 32-bit words (groups of 4). -/
def bytesToWordsBE : Bytes → List Nat
  | b0 :: b1 :: b2 :: b3 :: rest =>
    (b0 * 16777216 + b1 * 65536 + b2 * 256 + b3) :: bytesToWordsBE rest
  | _ => []

/-- Big-endian serialization of one 32-bit word into 4 bytes. -/
def wordToBytesBE (w : Nat) : Bytes :=
  [w / 16777216 % 256, w / 65536 % 256, w / 256 % 256, w % 256]

/-- Big-endian serialization of a word list. -/
def wordsToBytesBE (ws : List Nat) : Bytes := ws.flatMap wordToBytesBE

/-- SHA-256 message schedule σ₀. -/
def sigma0 (w : Nat) : Nat := rotr 7 w ^^^ rotr 18 w ^^^ (w >>> 3)

/-- SHA-256 message schedule σ₁. -/
def sigma1 (w : Nat) : Nat := rotr 17 w ^^^ rotr 19 w ^^^ (w >>> 10)

/-- Extend the 16-word block to the 64-word schedule (48 extension steps). -/
def sha256Extend : Nat → List Nat → List Nat
  | 0, acc => acc
  | f + 1, acc =>
    let i := acc.length
    let wi := u32 (acc.getD (i - 16) 0 + sigma0 (acc.getD (i - 15) 0) +
                   acc.getD (i - 7) 0 + sigma1 (acc.getD (i - 2) 0))
    sha256Extend f (acc ++ [wi])

/-- The eight working variables of the compression loop. -/
structure Sha256State where
  a : Nat
  b : Nat
  c : Nat
  d : Nat
  e : Nat
  f : Nat
  g : Nat
  h : Nat

/-- The 64 compression rounds, consuming round constants and schedule words. -/
def sha256Rounds : List Nat → List Nat → Sha256State → Sha256State
  | k :: ks, w :: ws, st =>
    let s1 := rotr 6 st.e ^^^ rotr 11 st.e ^^^ rotr 25 st.e
    let ch := (st.e &&& st.f) ^^^ (compl32 st.e &&& st.g)
    let t1 := u32 (st.h + s1 + ch + k + w)
    let s0 := rotr 2 st.a ^^^ rotr 13 st.a ^^^ rotr 22 st.a
    let maj := (st.a &&& st.b) ^^^ (st.a &&& st.c) ^^^ (st.b &&& st.c)
    let t2 := u32 (s0 + maj)
    sha256Rounds ks ws
      ⟨u32 (t1 + t2), st.a, st.b, st.c, u32 (st.d + t1), st.e, st.f, st.g⟩
  | _, _, st => st

/-- Compress one 64-byte block into the running hash. -/
def sha256Compress (h : List Nat) (block : Bytes) : List Nat :=
  let w := sha256Extend 48 (bytesToWordsBE block)
  let st0 : Sha256State :=
    ⟨h.getD 0 0, h.getD 1 0, h.getD 2 0, h.getD 3 0,
     h.getD 4 0, h.getD 5 0, h.getD 6 0, h.getD 7 0⟩
  let st := sha256Rounds sha256K w st0
  [u32 (h.getD 0 0 + st.a), u32 (h.getD 1 0 + st.b), u32 (h.getD 2 0 + st.c),
   u32 (h.getD 3 0 + st.d), u32 (h.getD 4 0 + st.e), u32 (h.getD 5 0 + st.f),
   u32 (h.getD 6 0 + st.g), u32 (h.getD 7 0 + st.h)]

/-- Split into 64-byte chunks (fuel-based so that it reduces in the kernel). -/
def chunks64Aux : Nat → Bytes → List Bytes
  | 0, _ => []
  | _ + 1, [] => []
  | f + 1, l => l.take 64 :: chunks64Aux f (l.drop 64)

/-- Split a byte list into 64-byte chunks. -/
def chunks64 (l : Bytes) : List Bytes := chunks64Aux l.length l

/-- SHA-256 message padding: `0x80`, zeros, then the 64-bit big-endian
bit length, to a multiple of 64 bytes. -/
def sha256Pad (msg : Bytes) : Bytes :=
  let len := msg.length
  let zeros := (64 - (len + 9) % 64) % 64
  let bitLen := len * 8
  msg ++ [128] ++ List.replicate zeros 0 ++
    [bitLen / 72057594037927936 % 256, bitLen / 281474976710656 % 256,
     bitLen / 1099511627776 % 256, bitLen / 4294967296 % 256,
     bitLen / 16777216 % 256, bitLen / 65536 % 256,
     bitLen / 256 % 256, bitLen % 256]

/-- SHA-256 of a byte list, as a 32-byte list. -/
def sha256 (msg : Bytes) : Bytes :=
  wordsToBytesBE ((chunks64 (sha256Pad msg)).foldl sha256Compress sha256H0)

/-! ## HMAC-SHA256 and HKDF (RFC 2104 / RFC 5869), from `@noble/hashes` -/

/-- HMAC-SHA256.  Keys longer than the 64-byte block are hashed first;
shorter keys are zero-padded. -/
def hmac (key msg : Bytes) : Bytes :=
  let k0 := if 64 < key.length then sha256 key else key
  let kp := k0 ++ List.replicate (64 - k0.length) 0
  let ipad := kp.map (fun b => b ^^^ 0x36)
  let opad := kp.map (fun b => b ^^^ 0x5c)
  sha256 (opad ++ sha256 (ipad ++ msg))

/-- HKDF-Extract: `extract(sha256, ikm, salt) = HMAC(salt, ikm)`. -/
def hkdfExtract (ikm salt : Bytes) : Bytes := hmac salt ikm

/-- The HKDF-Expand block chain `T(1), T(2), …`. -/
def hkdfExpandBlocks : Nat → Bytes → Bytes → Bytes → Nat → Bytes
  | 0, _, _, _, _ => []
  | f + 1, prk, info, prev, i =>
    let t := hmac prk (prev ++ info ++ [i])
    t ++ hkdfExpandBlocks f prk info t (i + 1)

/-- HKDF-Expand to `len` bytes. -/
def hkdfExpand (prk info : Bytes) (len : Nat) : Bytes :=
  (hkdfExpandBlocks ((len + 31) / 32) prk info [] 1).take len

/-! ## ChaCha20 (RFC 8439), from `@noble/ciphers/chacha`

`chacha20(key, nonce, data)` with a 12-byte nonce and initial block
counter 0, as used by `nip44Encrypt`/`nip44Decrypt`. -/

/-- Little-endian packing of bytes into 32-bit words (groups of 4). -/
def bytesToWordsLE : Bytes → List Nat
  | b0 :: b1 :: b2 :: b3 :: rest =>
    (b0 + b1 * 256 + b2 * 65536 + b3 * 16777216) :: bytesToWordsLE rest
  | _ => []

/-- Little-endian serialization of one 32-bit word. -/
def wordToBytesLE (w : Nat) : Bytes :=
  [w % 256, w / 256 % 256, w / 65536 % 256, w / 16777216 % 256]

/-- Little-endian serialization of a word list. -/
def wordsToBytesLE (ws : List Nat) : Bytes := ws.flatMap wordToBytesLE

/-- One ChaCha quarter round on positions `a b c d` of the 16-word state. -/
def chachaQR (st : List Nat) (a b c d : Nat) : List Nat :=
  let sa := u32 (st.getD a 0 + st.getD b 0)
  let sd := rotl 16 (st.getD d 0 ^^^ sa)
  let sc := u32 (st.getD c 0 + sd)
  let sb := rotl 12 (st.getD b 0 ^^^ sc)
  let sa' := u32 (sa + sb)
  let sd' := rotl 8 (sd ^^^ sa')
  let sc' := u32 (sc + sd')
  let sb' := rotl 7 (sb ^^^ sc')
  ((((st.set a sa').set b sb').set c sc').set d sd')

/-- One ChaCha double round (column round then diagonal round). -/
def chachaDoubleRound (st : List Nat) : List Nat :=
  chachaQR (chachaQR (chachaQR (chachaQR
    (chachaQR (chachaQR (chachaQR (chachaQR st
      0 4 8 12) 1 5 9 13) 2 6 10 14) 3 7 11 15)
      0 5 10 15) 1 6 11 12) 2 7 8 13) 3 4 9 14

/-- Iterate the double round. -/
def chachaRounds : Nat → List Nat → List Nat
  | 0, st => st
  | f + 1, st => chachaRounds f (chachaDoubleRound st)

/-- One 64-byte ChaCha20 keystream block for a block counter. -/
def chachaBlock (key nonce : Bytes) (counter : Nat) : Bytes :=
  let init := [0x61707865, 0x3320646e, 0x79622d32, 0x6b206574] ++
    bytesToWordsLE key ++ [u32 counter] ++ bytesToWordsLE nonce
  let st := chachaRounds 10 init
  wordsToBytesLE (List.zipWith (fun a b => u32 (a + b)) st init)

/-- Concatenated keystream blocks for counters `c, c+1, …`. -/
def chachaBlocks : Nat → Bytes → Bytes → Nat → Bytes
  | 0, _, _, _ => []
  | f + 1, key, nonce, c => chachaBlock key nonce c ++ chachaBlocks f key nonce (c + 1)

/-- The first `len` keystream bytes (counter starts at 0). -/
def chachaKeystream (key nonce : Bytes) (len : Nat) : Bytes :=
  (chachaBlocks ((len + 63) / 64) key nonce 0).take len

/-- ChaCha20 encryption/decryption: XOR with the keystream. -/
def chacha20 (key nonce data : Bytes) : Bytes :=
  List.zipWith (fun a b => a ^^^ b) data (chachaKeystream key nonce data.length)

/-! ## Base64: the platform `btoa` / `atob` used by the wire format

`nip44Encrypt` ends with `btoa(String.fromCharCode(...payload))` and
`nip44Decrypt` starts with `Uint8Array.from(atob(payload), …)`.  `atob`
implements the WHATWG forgiving-base64 decode. -/

/-- The base64 alphabet. -/
def b64Alphabet : List Char :=
  ['A','B','C','D','E','F','G','H','I','J','K','L','M','N','O','P','Q','R',
   'S','T','U','V','W','X','Y','Z','a','b','c','d','e','f','g','h','i','j',
   'k','l','m','n','o','p','q','r','s','t','u','v','w','x','y','z','0','1',
   '2','3','4','5','6','7','8','9','+','/']

/-- The base64 digit for a 6-bit value. -/
def b64Char (n : Nat) : Char := b64Alphabet.getD n '?'

/-- The 6-bit value of a base64 digit, if any. -/
def b64Val (c : Char) : Option Nat :=
  (b64Alphabet.findIdx? (fun d => d == c))

/-- `btoa` on a byte list: 3-byte groups become 4 digits, with `=` padding. -/
def btoa : Bytes → List Char
  | [] => []
  | [b0] => [b64Char (b0 / 4), b64Char (b0 % 4 * 16), '=', '=']
  | [b0, b1] =>
    [b64Char (b0 / 4), b64Char (b0 % 4 * 16 + b1 / 16), b64Char (b1 % 16 * 4), '=']
  | b0 :: b1 :: b2 :: rest =>
    [b64Char (b0 / 4), b64Char (b0 % 4 * 16 + b1 / 16),
     b64Char (b1 % 16 * 4 + b2 / 64), b64Char (b2 % 64)] ++ btoa rest

/-- ASCII whitespace, stripped by forgiving-base64. -/
def isB64Ws (c : Char) : Bool :=
  c == ' ' || c == '\t' || c == '\n' || c == '\x0c' || c == '\r'

/-- Decode base64 digit groups: a final group of 2 digits yields 1 byte,
of 3 digits 2 bytes; a lone trailing digit is an error. -/
def atobCore : List Char → Option Bytes
  | [] => some []
  | [c1, c2] => do
    let v1 ← b64Val c1
    let v2 ← b64Val c2
    pure [v1 * 4 + v2 / 16]
  | [c1, c2, c3] => do
    let v1 ← b64Val c1
    let v2 ← b64Val c2
    let v3 ← b64Val c3
    pure [v1 * 4 + v2 / 16, v2 % 16 * 16 + v3 / 4]
  | c1 :: c2 :: c3 :: c4 :: rest => do
    let v1 ← b64Val c1
    let v2 ← b64Val c2
    let v3 ← b64Val c3
    let v4 ← b64Val c4
    let tail ← atobCore rest
    pure ([v1 * 4 + v2 / 16, v2 % 16 * 16 + v3 / 4, v3 % 4 * 64 + v4] ++ tail)
  | [_] => none

/-- Strip at most two trailing `=` characters. -/
def stripPad (s : List Char) : List Char :=
  match s.reverse with
  | '=' :: '=' :: rest => rest.reverse
  | '=' :: rest => rest.reverse
  | _ => s

/-- `atob`: WHATWG forgiving-base64 decode (strip ASCII whitespace, strip
trailing padding when the length is a multiple of 4, then decode). -/
def atob (s : List Char) : Option Bytes :=
  let t := s.filter (fun c => !isB64Ws c)
  let u := if t.length % 4 = 0 then stripPad t else t
  atobCore u

/-! ## Hex utilities (`src/utils/hex.ts`)

`hexToBytes` uses `Number.parseInt(pair, 16)` per byte pair, so it
inherits JavaScript's lenient numeric parsing: leading whitespace, a
sign, a `0x` prefix and trailing junk after at least one digit are all
accepted.  `parseIntHex` models `Number.parseInt(s, 16)`. -/

/-- The value of a hex digit, if any. -/
def hexDigit (c : Char) : Option Nat :=
  if '0' ≤ c ∧ c ≤ '9' then some (c.toNat - '0'.toNat)
  else if 'a' ≤ c ∧ c ≤ 'f' then some (c.toNat - 'a'.toNat + 10)
  else if 'A' ≤ c ∧ c ≤ 'F' then some (c.toNat - 'A'.toNat + 10)
  else none

/-- Longest hex-digit prefix, with its value; `none` when there is no digit. -/
def hexPrefixVal : List Char → Option Nat → Option Nat
  | [], acc => acc
  | c :: rest, acc =>
    match hexDigit c with
    | some d => hexPrefixVal rest (some ((acc.getD 0) * 16 + d))
    | none => acc

/-- JavaScript's `Number.parseInt(s, 16)`: skip whitespace, accept an
optional sign and an optional `0x`/`0X` prefix, then read the longest
digit prefix; `NaN` (here `none`) when no digit follows.  A leading `-`
yields a negated value; the callers below only see byte pairs, where the
sign can only appear with at most one digit, so the magnitude suffices
(`negative` flags the sign for faithfulness of the NaN/value split). -/
def parseIntHex (s : List Char) : Option (Bool × Nat) :=
  let t := s.dropWhile (fun c => isB64Ws c || c == '\x0b')
  let (neg, t1) :=
    match t with
    | '-' :: rest => (true, rest)
    | '+' :: rest => (false, rest)
    | _ => (false, t)
  let t2 :=
    match t1 with
    | '0' :: 'x' :: rest => rest
    | '0' :: 'X' :: rest => rest
    | _ => t1
  match hexPrefixVal t2 none with
  | some v => some (neg, v)
  | none => none

/-- `bytesToHex` from `src/utils/hex.ts`: two lowercase digits per byte. -/
def bytesToHex (bytes : Bytes) : List Char :=
  bytes.flatMap (fun b => [(Nat.digitChar (b / 16 % 16)), Nat.digitChar (b % 16)])

/-- `hexToBytes` from `src/utils/hex.ts`: reject odd length, then parse
each 2-character slice with `Number.parseInt(…, 16)`, rejecting `NaN`. -/
def hexToBytes (hex : List Char) : Except String Bytes :=
  if hex.length % 2 ≠ 0 then .error "Invalid hex string"
  else hexToBytesAux hex
where
  /-- Process successive 2-character slices. -/
  hexToBytesAux : List Char → Except String Bytes
    | [] => .ok []
    | c1 :: c2 :: rest => do
      match parseIntHex [c1, c2] with
      | none => .error "Invalid hex character"
      | some (neg, v) =>
        let byte := if neg then (256 - v % 256) % 256 else v % 256
        let tail ← hexToBytesAux rest
        pure (byte :: tail)
    | [_] => .error "Invalid hex string"

/-! ## NIP-44 v2 encryption (`src/nwc/crypto.ts`, bundled in
`esbuild.config.mjs` lines 44–201) -/

/-- `utf8ToBytes("nip44-v2")`. -/
def NIP44_SALT : Bytes := [110, 105, 112, 52, 52, 45, 118, 50]

/-- The per-message key triple. -/
structure MessageKeys where
  chachaKey : Bytes
  chaChaNonce : Bytes
  hmacKey : Bytes

/-- `getMessageKeys`: HKDF-Expand the conversation key with the nonce as
info to 76 bytes, sliced `(32, 12, 32)`. -/
def getMessageKeys (conversationKey nonce : Bytes) :
    Except String MessageKeys :=
  if conversationKey.length ≠ 32 then .error "Invalid conversation key length"
  else if nonce.length ≠ 32 then .error "Invalid nonce length"
  else
    let keys := hkdfExpand conversationKey nonce 76
    .ok ⟨(keys.take 32), ((keys.drop 32).take 12), ((keys.drop 44).take 32)⟩

/-- Structural floor of `log₂` (fuel-based so it reduces in the kernel);
models `Math.floor(Math.log2 n)`, which is exact for `n < 2^16`. -/
def log2Fuel : Nat → Nat → Nat
  | 0, _ => 0
  | f + 1, n => if 2 ≤ n then log2Fuel f (n / 2) + 1 else 0

/-- Floor of the base-2 logarithm. -/
def log2floor (n : Nat) : Nat := log2Fuel n n

/-- `calcPaddedLen` from the source: `1 << (⌊log₂(n-1)⌋ + 1)` is the next
power of two, chunk is 32 below 256 and an eighth of the power above. -/
def calcPaddedLen (unpaddedLen : Nat) : Except String Nat :=
  if unpaddedLen ≤ 0 then .error "Invalid plaintext length"
  else if unpaddedLen ≤ 32 then .ok 32
  else
    let nextPower := 1 <<< (log2floor (unpaddedLen - 1) + 1)
    let chunk := if nextPower ≤ 256 then 32 else nextPower / 8
    .ok (chunk * ((unpaddedLen - 1) / chunk + 1))

/-- `pad`: 2-byte big-endian length prefix, then the plaintext bytes,
zero-filled to the bucketed length.  The plaintext argument is the UTF-8
byte list of the source's string argument. -/
def pad (plaintext : Bytes) : Except String Bytes := do
  let unpaddedLen := plaintext.length
  if unpaddedLen < 1 ∨ unpaddedLen > 65535 then
    throw "Invalid plaintext length"
  let paddedLen ← calcPaddedLen unpaddedLen
  pure ([unpaddedLen >>> 8 &&& 255, unpaddedLen &&& 255] ++ plaintext ++
    List.replicate (paddedLen - unpaddedLen) 0)

/-- `unpad`: read the length prefix, validate, slice.  The result is the
UTF-8 byte list of the source's decoded string. -/
def unpad (padded : Bytes) : Except String Bytes :=
  let unpaddedLen := padded.getD 0 0 <<< 8 ||| padded.getD 1 0
  if unpaddedLen = 0 then .error "Invalid padding"
  else if padded.length - 2 < unpaddedLen then .error "Invalid padding"
  else
    match calcPaddedLen unpaddedLen with
    | .error e => .error e
    | .ok bucket =>
      if padded.length ≠ 2 + bucket then .error "Invalid padding"
      else .ok ((padded.drop 2).take unpaddedLen)

/-- `hmacAad`: HMAC over `aad ∥ message` with a 32-byte AAD check. -/
def hmacAad (key message aad : Bytes) : Except String Bytes :=
  if aad.length ≠ 32 then .error "AAD must be 32 bytes"
  else .ok (hmac key (aad ++ message))

/-- `constantTimeEqual`: length check, then an accumulated XOR of all
byte pairs compared with zero. -/
def constantTimeEqual (a b : Bytes) : Bool :=
  if a.length ≠ b.length then false
  else (List.zipWith (fun x y => x ^^^ y) a b).foldl (fun d x => d ||| x) 0 == 0

/-- `nip44Encrypt` with an explicit nonce (the source draws a random
32-byte nonce when none is supplied; the claims quantify over the nonce). -/
def nip44Encrypt (plaintext : Bytes) (conversationKey nonce : Bytes) :
    Except String (List Char) := do
  let keys ← getMessageKeys conversationKey nonce
  let padded ← pad plaintext
  let ciphertext := chacha20 keys.chachaKey keys.chaChaNonce padded
  let mac ← hmacAad keys.hmacKey ciphertext nonce
  pure (btoa ([2] ++ nonce ++ ciphertext ++ mac))

/-- `nip44Decrypt`, following the source's guard order: unknown version
for empty or `#`-prefixed input, encoded size bounds, base64 decode,
decoded size bounds, version byte, MAC check via `constantTimeEqual`,
then ChaCha20 and `unpad`. -/
def nip44Decrypt (payload : List Char) (conversationKey : Bytes) :
    Except String Bytes := do
  let plen := payload.length
  if plen = 0 ∨ payload.headD ' ' = '#' then throw "Unknown version"
  if plen < 132 ∨ plen > 87472 then throw "Invalid payload size"
  let data ← match atob payload with
    | none => throw "Invalid base64"
    | some d => pure d
  let dlen := data.length
  if dlen < 99 ∨ dlen > 65603 then throw "Invalid data size"
  if data.headD 0 ≠ 2 then
    throw ("Unknown version " ++ toString (data.headD 0))
  let nonce := (data.drop 1).take 32
  let ciphertext := (data.drop 33).take (dlen - 32 - 33)
  let mac := data.drop (dlen - 32)
  let keys ← getMessageKeys conversationKey nonce
  let calculatedMac ← hmacAad keys.hmacKey ciphertext nonce
  if ¬ constantTimeEqual calculatedMac mac then throw "Invalid MAC"
  let padded := chacha20 keys.chachaKey keys.chaChaNonce ciphertext
  unpad padded

/-! ## Preimage verification (`src/payment/verify.ts`) -/

/-- JavaScript strings are modelled as lists of characters. -/
abbrev JStr := List Char

/-- ASCII lowercase of a string, `String.prototype.toLowerCase`. -/
def toLowerStr (s : JStr) : JStr := s.map Char.toLower

/-- The verification token of `src/payment/verify.ts` /
`src/types.ts`: payment hash, proof preimage (possibly empty on the
trusted path) and settlement time. -/
structure VerificationToken where
  paymentHash : JStr
  preimage : JStr
  settledAt : Nat
deriving DecidableEq

/-- `verifyPreimage`: SHA-256 the hex-decoded preimage and compare with
the lowercased payment hash.  A hex-decoding failure propagates as an
exception (the source does not catch it). -/
def verifyPreimage (preimage paymentHash : JStr) : Except String Bool := do
  let preimageBytes ← hexToBytes preimage
  let computedHash := bytesToHex (sha256 preimageBytes)
  pure (computedHash = toLowerStr paymentHash)

/-- `createVerificationToken`: `null` when verification returns false; a
token stamped with the current time (`Date.now()/1000`, here the explicit
`now` argument) when it returns true. -/
def createVerificationToken (preimage paymentHash : JStr) (now : Nat) :
    Except String (Option VerificationToken) := do
  let ok ← verifyPreimage preimage paymentHash
  if ok then pure (some ⟨paymentHash, preimage, now⟩) else pure none

/-! ## Payment state machine (`src/payment/state-machine.ts`) -/

/-- The six payment states. -/
inductive PaymentState
  | idle
  | invoicing
  | awaiting_payment
  | webln_prompt
  | verified
  | error
deriving DecidableEq

/-- Printable name of a state, for the error message. -/
def stateName : PaymentState → JStr
  | .idle => "idle".data
  | .invoicing => "invoicing".data
  | .awaiting_payment => "awaiting_payment".data
  | .webln_prompt => "webln_prompt".data
  | .verified => "verified".data
  | .error => "error".data

/-- The `VALID_TRANSITIONS` table. -/
def VALID_TRANSITIONS : PaymentState → List PaymentState
  | .idle => [.invoicing]
  | .invoicing => [.awaiting_payment, .error]
  | .awaiting_payment => [.webln_prompt, .verified, .error]
  | .webln_prompt => [.verified, .awaiting_payment, .error]
  | .verified => []
  | .error => [.idle]

/-- The accumulated data bag (`StateData`). -/
structure StateData where
  invoice : Option JStr := none
  paymentHash : Option JStr := none
  preimage : Option JStr := none
  error : Option JStr := none
  amount : Option Nat := none
deriving DecidableEq

/-- Object-spread merge `{...old, ...upd}`: a key present in the update
overrides the old value. -/
def mergeData (old upd : StateData) : StateData :=
  { invoice := upd.invoice <|> old.invoice,
    paymentHash := upd.paymentHash <|> old.paymentHash,
    preimage := upd.preimage <|> old.preimage,
    error := upd.error <|> old.error,
    amount := upd.amount <|> old.amount }

/-- A `PaymentStateMachine` instance: current state, data bag, and the
registered listeners (identified by tokens; a notification records which
listener was called with which arguments). -/
structure Machine where
  state : PaymentState := .idle
  data : StateData := {}
  listeners : List Nat := []
deriving DecidableEq

/-- One listener call: listener id, state argument, data argument. -/
structure Notification where
  listener : Nat
  state : PaymentState
  data : StateData
deriving DecidableEq

/-- `transition(newState, data?)`: throw before any mutation when the
target is not allowed from the current state; otherwise set the state,
merge the data and call every listener in registration order.  The result
is `(machine after the call, thrown message if any, listener calls)`. -/
def transition (m : Machine) (newState : PaymentState)
    (data : Option StateData) : Machine × Option JStr × List Notification :=
  if (VALID_TRANSITIONS m.state).contains newState then
    let data' := match data with
      | some d => mergeData m.data d
      | none => m.data
    let m' := { m with state := newState, data := data' }
    (m', none, m.listeners.map (fun l => ⟨l, newState, data'⟩))
  else
    (m, some ("Invalid state transition: ".data ++ stateName m.state ++
      " → ".data ++ stateName newState), [])

/-- `reset()`: unconditionally force `idle`, clear the data bag, and
notify every listener. -/
def reset (m : Machine) : Machine × List Notification :=
  let m' := { m with state := .idle, data := {} }
  (m', m.listeners.map (fun l => ⟨l, .idle, {}⟩))

/-! ## Widget settlement reconciliation (`src/widget.ts`, sequential
variant: `checkResult` lines 346–375, `handleSettledWithoutPreimage`
lines 479–490, `startPolling` lines 415–446) -/

/-- A lookup/transaction record as inspected by `checkResult`:
`preimage`, `settled_at` and `state` with JavaScript truthiness
(`none` = absent/undefined/null). -/
structure LookupRecord where
  preimage : Option JStr := none
  settled_at : Option Nat := none
  state : Option JStr := none
deriving DecidableEq

/-- JavaScript truthiness of an optional string: present and nonempty. -/
def truthyStr : Option JStr → Bool
  | some s => !s.isEmpty
  | none => false

/-- JavaScript truthiness of an optional number: present and nonzero. -/
def truthyNum : Option Nat → Bool
  | some n => n ≠ 0
  | none => false

/-- `/^0+$/.test(s)`: nonempty and all zeros. -/
def allZeros (s : JStr) : Bool := !s.isEmpty && s.all (fun c => c == '0')

/-- The widget as far as the claims observe it: the state machine and the
tokens handed to the success callback (`fired`), with `hasCallback`
modelling a configured `config.callback` that resolves to a function on
`window`. -/
structure Widget where
  machine : Machine
  fired : List VerificationToken := []
  hasCallback : Bool := true
deriving DecidableEq

/-- `fireCallback`: deliver the token when a callback is configured. -/
def fireCallback (w : Widget) (token : VerificationToken) : Widget :=
  if w.hasCallback then { w with fired := w.fired ++ [token] } else w

/-- `handlePaymentReceived`: verify the preimage (propagating hex
errors), transition to `error` on mismatch, otherwise build the token,
transition to `verified` and fire the callback.  A state-machine throw
propagates. -/
def handlePaymentReceived (w : Widget) (preimage paymentHash : JStr)
    (now : Nat) : Except String Widget := do
  let okPre ← verifyPreimage preimage paymentHash
  if ¬ okPre then
    let (m', err, _) := transition w.machine .error
      (some { error := some "Payment verification failed — invalid preimage".data })
    match err with
    | some e => throw (String.mk e)
    | none => pure { w with machine := m' }
  else
    let token ← createVerificationToken preimage paymentHash now
    let (m', err, _) := transition w.machine .verified
      (some { preimage := some preimage })
    match err with
    | some e => throw (String.mk e)
    | none =>
      let w' := { w with machine := m' }
      match token with
      | some t => pure (if w'.hasCallback then fireCallback w' t else w')
      | none => pure w'

/-- `handleSettledWithoutPreimage`: trusted settlement — token with empty
preimage stamped with the current wall-clock time, transition to
`verified`, fire callback. -/
def handleSettledWithoutPreimage (w : Widget) (paymentHash : JStr)
    (now : Nat) : Except String Widget := do
  let token : VerificationToken := ⟨paymentHash, [], now⟩
  let (m', err, _) := transition w.machine .verified (some {})
  match err with
  | some e => throw (String.mk e)
  | none =>
    let w' := { w with machine := m' }
    pure (if w'.hasCallback then fireCallback w' token else w')

/-- `checkResult`: preimage (cryptographic proof) first, then the
`settled_at` timestamp, then a `settled`/`paid` state field; `false`
when none applies. -/
def checkResult (w : Widget) (result : Option LookupRecord)
    (paymentHash : JStr) (now : Nat) : Except String (Widget × Bool) :=
  match result with
  | none => .ok (w, false)
  | some r =>
    if truthyStr r.preimage ∧ 0 < (r.preimage.getD []).length ∧
        ¬ allZeros (r.preimage.getD []) then do
      let w' ← handlePaymentReceived w (r.preimage.getD []) paymentHash now
      pure (w', true)
    else if truthyNum r.settled_at then do
      let w' ← handleSettledWithoutPreimage w paymentHash now
      pure (w', true)
    else if toLowerStr (r.state.getD []) = "settled".data ∨
        toLowerStr (r.state.getD []) = "paid".data then do
      let w' ← handleSettledWithoutPreimage w paymentHash now
      pure (w', true)
    else .ok (w, false)

/-- The sequential poll loop of `startPolling`, counting `checkPayment`
invocations.  `found i` is the result of the `i`-th `checkPayment` (the
all-unsettled scenario is `found = fun _ => false`).  Returns the machine
after the run and the number of checks performed.  Fuel-based: the source
loop stops by itself once `pollCount` exceeds `maxPolls`. -/
def pollAux (found : Nat → Bool) (maxPolls : Nat) :
    Nat → Nat → Nat → Machine → Machine × Nat
  | 0, _, checks, m => (m, checks)
  | fuel + 1, pollCount, checks, m =>
    let pc := pollCount + 1
    if maxPolls < pc then
      let (m', _, _) := transition m .error
        (some { error := some "Payment timeout — invoice expired".data })
      (m', checks)
    else if found pc then (m, checks + 1)
    else pollAux found maxPolls fuel pc (checks + 1) m

/-- A polling run started with counter 0 and enough fuel. -/
def pollRun (found : Nat → Bool) (maxPolls : Nat) (m : Machine) :
    Machine × Nat :=
  pollAux found maxPolls (maxPolls + 1) 0 0 m

/-! ## NWC client request flow (`src/nwc/client.ts`, `sendRequest`
lines 124–224) -/

/-- A Nostr event as the message handler inspects it. -/
structure ClientEvent where
  id : JStr
  pubkey : JStr
  kind : Nat
  tags : List (List JStr)
  content : JStr
deriving DecidableEq

/-- Inbound relay messages (`parsed[0]`, `parsed[1]`, `parsed[2]`). -/
inductive RelayMsg
  | eose (subId : JStr)
  | event (subId : JStr) (ev : Option ClientEvent)
  | okMsg (id : JStr) (accepted : Bool)
  | notice (text : JStr)
  | other

/-- Outbound socket messages sent by `sendRequest`. -/
inductive OutMsg
  | req (subId : JStr)
  | publish (ev : ClientEvent)
  | close (subId : JStr)
deriving DecidableEq

/-- The per-request context: subscription id, the signed request event,
the wallet pubkey, and the response decryption (abstracting
`nip04Decrypt` with the shared secret). -/
structure ReqCtx where
  subId : JStr
  reqEvent : ClientEvent
  walletPubkey : JStr
  decrypt : JStr → Except String JStr

/-- The state of one in-flight `sendRequest`: the EOSE flag, the
resolution (if any), and every message sent on the socket so far. -/
structure SendState where
  eoseReceived : Bool
  settled : Option (Except String JStr)
  out : List OutMsg

/-- The `onMessage` handler, one inbound message.  After resolution the
listener has been removed, so messages are ignored.  An EOSE for this
subscription publishes the request (once); a matching response event is
checked for kind, sender and `e`-tag, then decrypted and resolved —
with no check of `eoseReceived`. -/
def clientStep (ctx : ReqCtx) (st : SendState) (m : RelayMsg) : SendState :=
  if st.settled.isSome then st
  else match m with
  | .eose sid =>
    if sid = ctx.subId ∧ ¬ st.eoseReceived then
      { st with eoseReceived := true, out := st.out ++ [.publish ctx.reqEvent] }
    else st
  | .event sid (some ev) =>
    if sid = ctx.subId then
      if ev.kind ≠ 23195 then st
      else if ev.pubkey ≠ ctx.walletPubkey then st
      else
        match ev.tags.find? (fun t => t.headD [] == "e".data) with
        | none => st
        | some t =>
          if t.getD 1 [] ≠ ctx.reqEvent.id then st
          else match ctx.decrypt ev.content with
            | .ok dec =>
              { st with settled := some (.ok dec), out := st.out ++ [.close ctx.subId] }
            | .error e =>
              { st with settled := some (.error e), out := st.out ++ [.close ctx.subId] }
    else st
  | _ => st

/-- The initial state: the handler is registered and `["REQ", subId,
filter]` has been sent; nothing has been published. -/
def clientInit (ctx : ReqCtx) : SendState :=
  { eoseReceived := false, settled := none, out := [.req ctx.subId] }

/-- Run the handler over a list of delivered relay messages. -/
def clientRun (ctx : ReqCtx) (msgs : List RelayMsg) : SendState :=
  msgs.foldl (clientStep ctx) (clientInit ctx)

/-! ## secp256k1 scalar arithmetic (`@noble/curves/secp256k1`)

`getConversationKey` calls `secp256k1.getSharedSecret`.  The curve is
`y² = x³ + 7` over the prime field of `secpP` = 2²⁵⁶ − 2³² − 977.
The primality of `secpP` is established below by a Pratt/Lucas
certificate so that the Mathlib group law applies. -/

/-- Binary modular exponentiation, structurally recursive on fuel so
that it reduces in the kernel. -/
def powModAux (m : Nat) : Nat → Nat → Nat → Nat → Nat
  | 0, _, _, acc => acc
  | f + 1, b, e, acc =>
    if e = 0 then acc
    else powModAux m f (b * b % m) (e / 2) (if e % 2 = 1 then acc * b % m else acc)

/-- `b ^ e % m` by binary exponentiation. -/
def powMod (m b e : Nat) : Nat := powModAux m e (b % m) e (1 % m)

/-- Fold `x·yᵏ` through the modulus. -/
lemma mul_pow_mod (m x y k : Nat) :
    x * y ^ k % m = x % m * ((y % m) ^ k % m) % m := by
  rw [Nat.mul_mod, Nat.pow_mod]

/-- Correctness of the exponentiation loop. -/
lemma powModAux_eq (m : Nat) :
    ∀ (fuel e b acc : Nat), e ≤ fuel → acc % m = acc →
      powModAux m fuel b e acc = acc * b ^ e % m := by
  intro fuel
  induction fuel with
  | zero =>
    intro e b acc he hacc
    have he0 : e = 0 := by omega
    subst he0
    simpa [powModAux] using hacc.symm
  | succ f ih =>
    intro e b acc he hacc
    by_cases he0 : e = 0
    · subst he0
      simpa [powModAux] using hacc.symm
    · have hstep : powModAux m (f + 1) b e acc =
          powModAux m f (b * b % m) (e / 2)
            (if e % 2 = 1 then acc * b % m else acc) := by
        simp [powModAux, he0]
      have hacc' : (if e % 2 = 1 then acc * b % m else acc) % m =
          (if e % 2 = 1 then acc * b % m else acc) := by
        split
        · exact Nat.mod_mod _ m
        · exact hacc
      rw [hstep, ih (e / 2) (b * b % m) _ (by omega) hacc']
      rcases Nat.mod_two_eq_zero_or_one e with hpar | hpar
      · rw [if_neg (by omega)]
        have hee : e = 2 * (e / 2) := by omega
        conv_rhs => rw [hee, pow_mul]
        rw [mul_pow_mod m acc (b ^ 2) (e / 2), hacc, pow_two]
        conv_lhs => rw [Nat.mul_mod, hacc]
      · rw [if_pos hpar]
        have hee : e = 2 * (e / 2) + 1 := by omega
        conv_rhs => rw [hee, pow_succ, pow_mul, ← Nat.mul_assoc,
          Nat.mul_comm acc ((b ^ 2) ^ (e / 2)), Nat.mul_assoc,
          Nat.mul_comm ((b ^ 2) ^ (e / 2)) _]
        rw [mul_pow_mod m (acc * b) (b ^ 2) (e / 2), pow_two]
        conv_lhs => rw [Nat.mul_mod, Nat.mod_mod]

/-- `powMod` computes `b ^ e % m`. -/
lemma powMod_eq (m b e : Nat) : powMod m b e = b ^ e % m := by
  unfold powMod
  rw [powModAux_eq m e e (b % m) (1 % m) le_rfl (Nat.mod_mod 1 m)]
  conv_lhs => rw [Nat.mul_mod, Nat.mod_mod, ← Nat.pow_mod, ← Nat.mul_mod,
    Nat.one_mul]

/-- Powers in `ZMod p` correspond to `powMod`. -/
lemma zmod_pow_eq_one_iff (p a k : Nat) (hp : 1 < p) :
    ((a : ZMod p) ^ k = 1) ↔ powMod p a k = 1 := by
  haveI : NeZero p := ⟨by omega⟩
  haveI : Fact (1 < p) := ⟨hp⟩
  rw [powMod_eq, ← Nat.cast_pow]
  constructor
  · intro h
    have hval := congrArg ZMod.val h
    rw [ZMod.val_natCast, ZMod.val_one p] at hval
    exact hval
  · intro h
    rw [← ZMod.natCast_mod, h, Nat.cast_one]

/-- A prime dividing a product of prime powers is one of the bases. -/
lemma prime_mem_of_dvd_prod : ∀ (L : List (Nat × Nat)) (q : Nat), Nat.Prime q →
    (∀ pe ∈ L, Nat.Prime pe.1) →
    q ∣ (L.map (fun pe => pe.1 ^ pe.2)).prod → q ∈ L.map Prod.fst := by
  intro L
  induction L with
  | nil =>
    intro q hq _ hdvd
    simp only [List.map_nil, List.prod_nil] at hdvd
    exact absurd (Nat.dvd_one.mp hdvd) hq.ne_one
  | cons pe rest ih =>
    intro q hq hprimes hdvd
    simp only [List.map_cons, List.prod_cons] at hdvd
    rcases hq.dvd_mul.mp hdvd with h | h
    · have h1 : q ∣ pe.1 := hq.dvd_of_dvd_pow h
      have h2 : q = pe.1 :=
        (Nat.prime_dvd_prime_iff_eq hq (hprimes pe (List.mem_cons_self pe rest))).mp h1
      simp [h2]
    · exact List.mem_cons_of_mem _
        (ih q hq (fun x hx => hprimes x (List.mem_cons_of_mem _ hx)) h)

/-- Lucas primality from an explicit certificate: a factorization of
`p − 1` into prime powers, and a witness `a` of full multiplicative
order. -/
theorem lucas_cert (p a : Nat) (hp : 2 ≤ p) (L : List (Nat × Nat))
    (hprimes : ∀ pe ∈ L, Nat.Prime pe.1)
    (hprod : p - 1 = (L.map (fun pe => pe.1 ^ pe.2)).prod)
    (hpow : powMod p a (p - 1) = 1)
    (hd : ∀ q ∈ L.map Prod.fst, powMod p a ((p - 1) / q) ≠ 1) :
    Nat.Prime p := by
  apply lucas_primality p (a : ZMod p)
  · exact (zmod_pow_eq_one_iff p a (p - 1) (by omega)).mpr hpow
  · intro q hq hqd
    have hmem : q ∈ L.map Prod.fst :=
      prime_mem_of_dvd_prod L q hq hprimes (hprod ▸ hqd)
    intro hcontra
    exact hd q hmem ((zmod_pow_eq_one_iff p a ((p - 1) / q) (by omega)).mp hcontra)

/-- The secp256k1 base-field prime 2^256 - 2^32 - 977. -/
def secpP : Nat := 115792089237316195423570985008687907853269984665640564039457584007908834671663

/-- Primality of the certificate prime 2. -/
lemma prime_2 : Nat.Prime 2 := by norm_num

/-- Primality of the certificate prime 3. -/
lemma prime_3 : Nat.Prime 3 := by norm_num

/-- Primality of the certificate prime 5. -/
lemma prime_5 : Nat.Prime 5 := by norm_num

/-- Primality of the certificate prime 7. -/
lemma prime_7 : Nat.Prime 7 := by norm_num

/-- Primality of the certificate prime 11. -/
lemma prime_11 : Nat.Prime 11 := by norm_num

/-- Primality of the certificate prime 29. -/
lemma prime_29 : Nat.Prime 29 := by norm_num

/-- Primality of the certificate prime 31. -/
lemma prime_31 : Nat.Prime 31 := by norm_num

/-- Primality of the certificate prime 1627. -/
lemma prime_1627 : Nat.Prime 1627 := by norm_num

/-- Primality of the certificate prime 2621. -/
lemma prime_2621 : Nat.Prime 2621 := by norm_num

/-- Primality of the certificate prime 2657. -/
lemma prime_2657 : Nat.Prime 2657 := by norm_num

/-- Primality of the certificate prime 4423. -/
lemma prime_4423 : Nat.Prime 4423 := by norm_num

/-- Primality of the certificate prime 5323. -/
lemma prime_5323 : Nat.Prime 5323 := by norm_num

/-- Primality of the certificate prime 7723. -/
lemma prime_7723 : Nat.Prime 7723 := by norm_num

/-- Primality of the certificate prime 13441. -/
lemma prime_13441 : Nat.Prime 13441 := by norm_num

/-- Primality of the certificate prime 24809. -/
lemma prime_24809 : Nat.Prime 24809 := by norm_num

/-- Primality of the certificate prime 41201. -/
lemma prime_41201 : Nat.Prime 41201 := by norm_num

/-- Primality of the certificate prime 96557. -/
lemma prime_96557 : Nat.Prime 96557 := by norm_num

/-- Primality of the certificate prime 53. -/
lemma prime_53 : Nat.Prime 53 := by norm_num

/-- Primality of the certificate prime 971. -/
lemma prime_971 : Nat.Prime 971 := by norm_num

/-- Primality of the certificate prime 1373. -/
lemma prime_1373 : Nat.Prime 1373 := by norm_num

/-- Primality of the certificate prime 1206781. -/
lemma prime_1206781 : Nat.Prime 1206781 := by norm_num

/-- Lucas certificate level: 7240687 is prime (witness 3). -/
lemma prime_7240687 : Nat.Prime 7240687 := by
  apply lucas_cert 7240687 3 (by norm_num) [(2, 1), (3, 1), (1206781, 1)]
  · intro pe hpe
    simp only [List.mem_cons, List.not_mem_nil, or_false] at hpe
    rcases hpe with rfl | rfl | rfl
    · exact Nat.prime_two
    · exact prime_3
    · exact prime_1206781
  · norm_num
  · decide
  · decide

/-- Lucas certificate level: 13331831 is prime (witness 13). -/
lemma prime_13331831 : Nat.Prime 13331831 := by
  apply lucas_cert 13331831 13 (by norm_num) [(2, 1), (5, 1), (971, 1), (1373, 1)]
  · intro pe hpe
    simp only [List.mem_cons, List.not_mem_nil, or_false] at hpe
    rcases hpe with rfl | rfl | rfl | rfl
    · exact Nat.prime_two
    · exact prime_5
    · exact prime_971
    · exact prime_1373
  · norm_num
  · decide
  · decide

/-- Lucas certificate level: 107590001 is prime (witness 3). -/
lemma prime_107590001 : Nat.Prime 107590001 := by
  apply lucas_cert 107590001 3 (by norm_num) [(2, 4), (5, 4), (7, 1), (29, 1), (53, 1)]
  · intro pe hpe
    simp only [List.mem_cons, List.not_mem_nil, or_false] at hpe
    rcases hpe with rfl | rfl | rfl | rfl | rfl
    · exact Nat.prime_two
    · exact prime_5
    · exact prime_7
    · exact prime_29
    · exact prime_53
  · norm_num
  · decide
  · decide

/-- Lucas certificate level: 173378833005251801 is prime (witness 6). -/
lemma prime_173378833005251801 : Nat.Prime 173378833005251801 := by
  apply lucas_cert 173378833005251801 6 (by norm_num) [(2, 3), (5, 2), (2621, 1), (24809, 1), (13331831, 1)]
  · intro pe hpe
    simp only [List.mem_cons, List.not_mem_nil, or_false] at hpe
    rcases hpe with rfl|rfl|rfl|rfl|rfl
    · exact Nat.prime_two
    · exact prime_5
    · exact prime_2621
    · exact prime_24809
    · exact prime_13331831
  · norm_num
  · decide
  · decide

/-- Lucas certificate level: 22149492674086928081353 is prime (witness 5). -/
lemma prime_22149492674086928081353 : Nat.Prime 22149492674086928081353 := by
  apply lucas_cert 22149492674086928081353 5 (by norm_num) [(2, 3), (3, 1), (5323, 1), (173378833005251801, 1)]
  · intro pe hpe
    simp only [List.mem_cons, List.not_mem_nil, or_false] at hpe
    rcases hpe with rfl|rfl|rfl|rfl
    · exact Nat.prime_two
    · exact Nat.prime_three
    · exact prime_5323
    · exact prime_173378833005251801
  · norm_num
  · decide
  · decide

/-- Lucas certificate level: 132896956044521568488119 is prime (witness 6). -/
lemma prime_132896956044521568488119 : Nat.Prime 132896956044521568488119 := by
  apply lucas_cert 132896956044521568488119 6 (by norm_num) [(2, 1), (3, 1), (22149492674086928081353, 1)]
  · intro pe hpe
    simp only [List.mem_cons, List.not_mem_nil, or_false] at hpe
    rcases hpe with rfl|rfl|rfl
    · exact Nat.prime_two
    · exact Nat.prime_three
    · exact prime_22149492674086928081353
  · norm_num
  · decide
  · decide

/-- Lucas certificate level: 255515944373312847190720520512484175977 is prime (witness 3). -/
lemma prime_255515944373312847190720520512484175977 : Nat.Prime 255515944373312847190720520512484175977 := by
  apply lucas_cert 255515944373312847190720520512484175977 3 (by norm_num) [(2, 3), (7, 2), (11, 1), (1627, 1), (2657, 1), (4423, 1), (41201, 1), (96557, 1), (7240687, 1), (107590001, 1)]
  · intro pe hpe
    simp only [List.mem_cons, List.not_mem_nil, or_false] at hpe
    rcases hpe with rfl|rfl|rfl|rfl|rfl|rfl|rfl|rfl|rfl|rfl
    · exact Nat.prime_two
    · exact prime_7
    · exact prime_11
    · exact prime_1627
    · exact prime_2657
    · exact prime_4423
    · exact prime_41201
    · exact prime_96557
    · exact prime_7240687
    · exact prime_107590001
  · norm_num
  · decide
  · decide

/-- Lucas certificate level: 205115282021455665897114700593932402728804164701536103180137503955397371 is prime (witness 10). -/
lemma prime_205115282021455665897114700593932402728804164701536103180137503955397371 : Nat.Prime 205115282021455665897114700593932402728804164701536103180137503955397371 := by
  apply lucas_cert 205115282021455665897114700593932402728804164701536103180137503955397371 10 (by norm_num) [(2, 1), (3, 1), (5, 1), (29, 2), (31, 1), (7723, 1), (132896956044521568488119, 1), (255515944373312847190720520512484175977, 1)]
  · intro pe hpe
    simp only [List.mem_cons, List.not_mem_nil, or_false] at hpe
    rcases hpe with rfl|rfl|rfl|rfl|rfl|rfl|rfl|rfl
    · exact Nat.prime_two
    · exact Nat.prime_three
    · exact prime_5
    · exact prime_29
    · exact prime_31
    · exact prime_7723
    · exact prime_132896956044521568488119
    · exact prime_255515944373312847190720520512484175977
  · norm_num
  · decide
  · decide

/-- Lucas certificate level: 115792089237316195423570985008687907853269984665640564039457584007908834671663 is prime (witness 3). -/
lemma secpP_prime : Nat.Prime secpP := by
  have hq : secpP = 115792089237316195423570985008687907853269984665640564039457584007908834671663 := rfl
  rw [hq]
  apply lucas_cert 115792089237316195423570985008687907853269984665640564039457584007908834671663 3 (by norm_num) [(2, 1), (3, 1), (7, 1), (13441, 1), (205115282021455665897114700593932402728804164701536103180137503955397371, 1)]
  · intro pe hpe
    simp only [List.mem_cons, List.not_mem_nil, or_false] at hpe
    rcases hpe with rfl|rfl|rfl|rfl|rfl
    · exact Nat.prime_two
    · exact Nat.prime_three
    · exact prime_7
    · exact prime_13441
    · exact prime_205115282021455665897114700593932402728804164701536103180137503955397371
  · norm_num
  · decide
  · decide

instance secpP_fact : Fact (Nat.Prime secpP) := ⟨secpP_prime⟩

/-- The secp256k1 base field. -/
abbrev Fp := ZMod secpP

/-- The order of the secp256k1 group (the valid scalar range is
`[1, secpN − 1]`). -/
def secpN : Nat :=
  0xfffffffffffffffffffffffffffffffebaaedce6af48a03bbfd25e8cd0364141

/-- x-coordinate of the secp256k1 base point. -/
def secpGx : Nat :=
  0x79be667ef9dcbbac55a06295ce870b07029bfcdb2dce28d959f2815b16f81798

/-- y-coordinate of the secp256k1 base point. -/
def secpGy : Nat :=
  0x483ada7726a3c4655da4fbfc0e1108a8fd17b448a68554199c47d08ffb10d4b8

/-- Affine points: `none` is the point at infinity. -/
abbrev Pt := Option (Fp × Fp)

/-- The secp256k1 chord–tangent addition (the group operation
implemented by `@noble/curves`), with explicit field formulas. -/
def ecAdd : Pt → Pt → Pt
  | none, q => q
  | some p, none => some p
  | some (x1, y1), some (x2, y2) =>
    if x1 = x2 then
      if y1 = -y2 then none
      else
        let L := 3 * x1 ^ 2 / (2 * y1)
        let x3 := L ^ 2 - x1 - x2
        some (x3, L * (x1 - x3) - y1)
    else
      let L := (y1 - y2) / (x1 - x2)
      let x3 := L ^ 2 - x1 - x2
      some (x3, L * (x1 - x3) - y1)

/-- Double-and-add scalar multiplication, fuel-based. -/
def ecMulAux : Nat → Pt → Nat → Pt → Pt
  | 0, _, _, acc => acc
  | f + 1, base, e, acc =>
    if e = 0 then acc
    else ecMulAux f (ecAdd base base) (e / 2)
      (if e % 2 = 1 then ecAdd acc base else acc)

/-- Scalar multiplication on the curve. -/
def ecMul (e : Nat) (p : Pt) : Pt := ecMulAux e p e none

/-- The secp256k1 base point. -/
def secpG : Pt := some ((secpGx : Fp), (secpGy : Fp))

/-- The curve `y² = x³ + 7` as a Mathlib Weierstrass curve, carrying the
group structure used to reason about `ecAdd`. -/
def secpW : WeierstrassCurve.Affine Fp := ⟨0, 0, 0, 0, 7⟩

/-- Forget the nonsingularity proof of a Mathlib point. -/
def fromPoint : secpW.Point → Pt
  | .zero => none
  | @WeierstrassCurve.Affine.Point.some _ _ _ x y _ => some (x, y)

/-- Every point satisfying the curve equation is nonsingular
(the curve is smooth: char ≠ 2 and 7 ≠ 0). -/
lemma nonsingular_of_eq {x y : Fp} (h : y ^ 2 = x ^ 3 + 7) :
    secpW.Nonsingular x y := by
  rw [WeierstrassCurve.Affine.nonsingular_iff]
  have heq : secpW.Equation x y := by
    rw [WeierstrassCurve.Affine.equation_iff]
    simp only [secpW]
    ring_nf
    ring_nf at h
    linear_combination h
  refine ⟨heq, ?_⟩
  by_cases hy : y = 0
  · left
    have hx : x ≠ 0 := by
      intro hx
      rw [hy, hx] at h
      norm_num at h
      exact absurd h (by decide)
    simp only [secpW]
    intro hcontra
    norm_num at hcontra
    rcases hcontra with h3 | hx0
    · exact absurd h3 (by decide)
    · exact hx hx0
  · right
    simp only [secpW, WeierstrassCurve.Affine.negY]
    intro hcontra
    have h2y : (2 : Fp) * y = 0 := by linear_combination hcontra
    rcases mul_eq_zero.mp h2y with h2 | hy0
    · exact absurd h2 (by decide)
    · exact hy hy0

/-- The curve equation of any Mathlib point, in short form. -/
lemma eq_of_nonsingular {x y : Fp} (h : secpW.Nonsingular x y) :
    y ^ 2 = x ^ 3 + 7 := by
  have heq := ((WeierstrassCurve.Affine.nonsingular_iff secpW x y).mp h).1
  rw [WeierstrassCurve.Affine.equation_iff] at heq
  simp only [secpW] at heq
  linear_combination heq

/-- `fromPoint` intertwines Mathlib point addition and `ecAdd`. -/
lemma fromPoint_add (A B : secpW.Point) :
    fromPoint (A + B) = ecAdd (fromPoint A) (fromPoint B) := by
  cases A with
  | zero =>
    rw [show (WeierstrassCurve.Affine.Point.zero : secpW.Point) = 0 from rfl, zero_add]
    cases B <;> rfl
  | @some x1 y1 h1 =>
    cases B with
    | zero =>
      rw [show (WeierstrassCurve.Affine.Point.zero : secpW.Point) = 0 from rfl, add_zero]
      rfl
    | @some x2 y2 h2 =>
      have hnegY : ∀ a b : Fp, secpW.negY a b = -b := fun a b => by
        simp [secpW, WeierstrassCurve.Affine.negY]
      by_cases hx : x1 = x2
      · by_cases hy : y1 = secpW.negY x2 y2
        · rw [WeierstrassCurve.Affine.Point.add_of_Y_eq hx hy]
          have hy' : y1 = -y2 := by rw [hy, hnegY]
          simp [fromPoint, ecAdd, hx, hy']
        · rw [WeierstrassCurve.Affine.Point.add_of_Y_ne hy]
          have hy' : ¬ (y1 = -y2) := by rw [← hnegY x2 y2]; exact hy
          have hyy : y1 = y2 :=
            WeierstrassCurve.Affine.Y_eq_of_Y_ne h1.1 h2.1 hx hy
          have hL : secpW.slope x1 x2 y1 y2 = 3 * x1 ^ 2 / (2 * y1) := by
            rw [WeierstrassCurve.Affine.slope_of_Y_ne hx hy, hnegY]
            simp only [secpW]
            ring_nf
          simp only [fromPoint, ecAdd, if_pos hx, if_neg hy']
          simp only [Option.some.injEq, Prod.mk.injEq]
          constructor
          · rw [WeierstrassCurve.Affine.addX, hL]
            simp only [secpW]
            ring
          · rw [WeierstrassCurve.Affine.addY, WeierstrassCurve.Affine.negAddY,
              WeierstrassCurve.Affine.addX, hnegY, hL]
            simp only [secpW]
            ring
      · rw [WeierstrassCurve.Affine.Point.add_of_X_ne hx]
        have hL : secpW.slope x1 x2 y1 y2 = (y1 - y2) / (x1 - x2) :=
          WeierstrassCurve.Affine.slope_of_X_ne hx
        simp only [fromPoint, ecAdd, if_neg hx]
        simp only [Option.some.injEq, Prod.mk.injEq]
        constructor
        · rw [WeierstrassCurve.Affine.addX, hL]
          simp only [secpW]
          ring
        · rw [WeierstrassCurve.Affine.addY, WeierstrassCurve.Affine.negAddY,
            WeierstrassCurve.Affine.addX, hnegY, hL]
          simp only [secpW]
          ring

/-- `fromPoint` intertwines the scalar-multiplication loop. -/
lemma fromPoint_mulAux : ∀ (fuel e : Nat) (B C : secpW.Point), e ≤ fuel →
    ecMulAux fuel (fromPoint B) e (fromPoint C) = fromPoint (e • B + C) := by
  intro fuel
  induction fuel with
  | zero =>
    intro e B C he
    have he0 : e = 0 := by omega
    subst he0
    rw [zero_nsmul, zero_add]
    rfl
  | succ f ih =>
    intro e B C he
    by_cases he0 : e = 0
    · subst he0
      rw [zero_nsmul, zero_add]
      rfl
    · have hstep : ecMulAux (f + 1) (fromPoint B) e (fromPoint C) =
          ecMulAux f (ecAdd (fromPoint B) (fromPoint B)) (e / 2)
            (if e % 2 = 1 then ecAdd (fromPoint C) (fromPoint B) else fromPoint C) := by
        simp [ecMulAux, he0]
      have hifs : (if e % 2 = 1 then ecAdd (fromPoint C) (fromPoint B) else fromPoint C)
          = fromPoint (if e % 2 = 1 then C + B else C) := by
        split
        · rw [← fromPoint_add]
        · rfl
      rw [hstep, ← fromPoint_add B B, hifs, ih (e / 2) (B + B) _ (by omega)]
      congr 1
      have hBB : B + B = 2 • B := (two_nsmul B).symm
      rcases Nat.mod_two_eq_zero_or_one e with hpar | hpar
      · rw [if_neg (by omega)]
        have hee : e = e / 2 * 2 := by omega
        conv_rhs => rw [hee]
        rw [hBB, ← smul_smul (e / 2) 2 B]
      · rw [if_pos hpar]
        have hee : e = e / 2 * 2 + 1 := by omega
        conv_rhs => rw [hee]
        rw [succ_nsmul, hBB, ← smul_smul (e / 2) 2 B]
        abel

/-- `ecMul` computes the Mathlib scalar multiple. -/
lemma fromPoint_mul (n : Nat) (A : secpW.Point) :
    ecMul n (fromPoint A) = fromPoint (n • A) := by
  have h := fromPoint_mulAux n n A 0 le_rfl
  rw [show fromPoint (0 : secpW.Point) = none from rfl] at h
  rw [ecMul, h, add_zero]

/-! ### Key serialization and decompression (noble `getPublicKey` /
`getSharedSecret` as called by the bundle's `getConversationKey`) -/

/-- Fixed-width big-endian byte serialization. -/
def natToBytesBE : Nat → Nat → Bytes
  | 0, _ => []
  | k + 1, n => natToBytesBE k (n / 256) ++ [n % 256]

/-- Big-endian value of a byte list. -/
def beNat (bs : Bytes) : Nat := bs.foldl (fun acc b => acc * 256 + b) 0

/-- Modular square root candidate for `p ≡ 3 (mod 4)`. -/
def sqrtF (w : Fp) : Fp := ((powMod secpP w.val ((secpP + 1) / 4) : Nat) : Fp)

/-- `schnorr.getPublicKey ∘ hexToBytes`, then `bytesToHex`, as in the
bundle's `getPublicKey`: validate the scalar, multiply the base point,
return the 32-byte x-coordinate in hex. -/
def getPublicKey (privateKeyHex : JStr) : Except String JStr :=
  match hexToBytes privateKeyHex with
  | .error e => .error e
  | .ok pb =>
    if pb.length ≠ 32 then .error "private key of length 32 expected"
    else
      let d := beNat pb
      if d = 0 ∨ secpN ≤ d then .error "invalid private key"
      else
        match ecMul d secpG with
        | none => .error "Point at infinity"
        | some (x, _) => .ok (bytesToHex (natToBytesBE 32 x.val))

/-- `secp256k1.getSharedSecret`: validate the scalar, decompress the
33-byte public key (prefix 02 = even y, 03 = odd y), multiply, return
the compressed shared point. -/
def getSharedSecret (priv pub : Bytes) : Except String Bytes :=
  if priv.length ≠ 32 then .error "private key of length 32 expected"
  else
    let d := beNat priv
    if d = 0 ∨ secpN ≤ d then .error "invalid private key"
    else if pub.length ≠ 33 then .error "invalid point"
    else
      let prefixByte := pub.headD 0
      if prefixByte ≠ 2 ∧ prefixByte ≠ 3 then .error "invalid point"
      else
        let x := beNat (pub.drop 1)
        if secpP ≤ x then .error "invalid point"
        else
          let xF : Fp := (x : Fp)
          let w := xF ^ 3 + 7
          let y0 := sqrtF w
          if y0 ^ 2 ≠ w then .error "Point is not on curve"
          else
            let y := if y0.val % 2 = 0 ↔ prefixByte = 2 then y0 else -y0
            match ecMul d (some (xF, y)) with
            | none => .error "Point at infinity"
            | some (xs, ys) =>
              .ok ((if ys.val % 2 = 0 then 2 else 3) :: natToBytesBE 32 xs.val)

/-- `getConversationKey` from the bundled crypto module: ECDH shared
point, x-coordinate (bytes 1..33 of the compressed point), HKDF-extract
with the `"nip44-v2"` salt. -/
def getConversationKey (privateKeyHex publicKeyHex : JStr) :
    Except String Bytes :=
  match hexToBytes privateKeyHex with
  | .error e => .error e
  | .ok priv =>
    match hexToBytes ('0' :: '2' :: publicKeyHex) with
    | .error e => .error e
    | .ok pub =>
      match getSharedSecret priv pub with
      | .error e => .error e
      | .ok sharedPoint =>
        let sharedX := (sharedPoint.drop 1).take 32
        .ok (hkdfExtract sharedX NIP44_SALT)

instance : NeZero secpP := ⟨by have := secpP_prime.two_le; omega⟩

/-- `natToBytesBE` always produces `k` bytes. -/
lemma natToBytesBE_length (k : Nat) : ∀ n, (natToBytesBE k n).length = k := by
  induction k with
  | zero => intro n; rfl
  | succ k ih =>
    intro n
    simp [natToBytesBE, ih]

/-- `natToBytesBE` produces bytes below 256. -/
lemma natToBytesBE_lt (k : Nat) : ∀ n, ∀ b ∈ natToBytesBE k n, b < 256 := by
  induction k with
  | zero => intro n b hb; simp [natToBytesBE] at hb
  | succ k ih =>
    intro n b hb
    simp only [natToBytesBE, List.mem_append, List.mem_singleton] at hb
    rcases hb with hb | hb
    · exact ih _ b hb
    · subst hb; exact Nat.mod_lt _ (by omega)

/-- `beNat` inverts `natToBytesBE` below `256^k`. -/
lemma beNat_natToBytesBE (k : Nat) : ∀ n, n < 256 ^ k →
    beNat (natToBytesBE k n) = n := by
  induction k with
  | zero =>
    intro n h
    simp at h
    simp [h, natToBytesBE, beNat]
  | succ k ih =>
    intro n h
    have hdiv : n / 256 < 256 ^ k := by
      rw [Nat.div_lt_iff_lt_mul (by omega)]
      calc n < 256 ^ (k + 1) := h
      _ = 256 ^ k * 256 := by rw [Nat.pow_succ]
    simp only [natToBytesBE, beNat, List.foldl_append, List.foldl_cons, List.foldl_nil]
    have := ih (n / 256) hdiv
    simp only [beNat] at this
    rw [this]
    omega

/-- Hex digits of one byte parse back to the byte. -/
lemma parse_digit_pair : ∀ b < 256,
    parseIntHex [Nat.digitChar (b / 16 % 16), Nat.digitChar (b % 16)] =
      some (false, b) := by decide

/-- The pairwise hex parser inverts `bytesToHex`. -/
lemma hexAux_bytesToHex : ∀ (bs : Bytes), (∀ b ∈ bs, b < 256) →
    hexToBytes.hexToBytesAux (bytesToHex bs) = .ok bs := by
  intro bs
  induction bs with
  | nil => intro _; rfl
  | cons b rest ih =>
    intro hlt
    have hb : b < 256 := hlt b (by simp)
    have hpair := parse_digit_pair b hb
    simp only [bytesToHex, List.flatMap_cons]
    show hexToBytes.hexToBytesAux
      (Nat.digitChar (b / 16 % 16) :: Nat.digitChar (b % 16) :: bytesToHex rest) = _
    rw [hexToBytes.hexToBytesAux, hpair]
    rw [ih (fun x hx => hlt x (by simp [hx]))]
    simp only [Except.bind]
    rw [if_neg (by simp), Nat.mod_eq_of_lt hb]
    rfl

/-- `hexToBytes` inverts `bytesToHex`. -/
lemma hexToBytes_bytesToHex (bs : Bytes) (h : ∀ b ∈ bs, b < 256) :
    hexToBytes (bytesToHex bs) = .ok bs := by
  have hlen : ∀ (l : Bytes), (bytesToHex l).length = 2 * l.length := by
    intro l
    induction l with
    | nil => rfl
    | cons x xs ih => simp [bytesToHex, List.flatMap_cons] at ih ⊢; omega
  rw [hexToBytes, if_neg (by rw [hlen]; omega)]
  exact hexAux_bytesToHex bs h

/-- `hexToBytes` of `"02" ++ hex` prepends the byte 2. -/
lemma hexToBytes_02 (bs : Bytes) (h : ∀ b ∈ bs, b < 256) :
    hexToBytes ('0' :: '2' :: bytesToHex bs) = .ok (2 :: bs) := by
  have hlen : ∀ (l : Bytes), (bytesToHex l).length = 2 * l.length := by
    intro l
    induction l with
    | nil => rfl
    | cons x xs ih => simp [bytesToHex, List.flatMap_cons] at ih ⊢; omega
  rw [hexToBytes, if_neg (by simp [hlen]; omega)]
  rw [hexToBytes.hexToBytesAux, show parseIntHex ['0', '2'] = some (false, 2) from by decide]
  rw [hexAux_bytesToHex bs h]
  rfl

/-- The square-root candidate of a square is the root up to sign. -/
lemma sqrtF_sq (y : Fp) : sqrtF (y ^ 2) = y ∨ sqrtF (y ^ 2) = -y := by
  have hp4 : secpP % 4 = 3 := by decide
  have hcast : sqrtF (y ^ 2) = (y ^ 2) ^ ((secpP + 1) / 4) := by
    rw [sqrtF, powMod_eq, ZMod.natCast_mod, Nat.cast_pow, ZMod.natCast_rightInverse]
  by_cases hy : y = 0
  · left
    subst hy
    rw [hcast]
    rw [zero_pow (by norm_num), zero_pow (by omega)]
  · have hpow2 : (y ^ 2) ^ ((secpP + 1) / 4) = y ^ ((secpP - 1) / 2) * y := by
      rw [← pow_mul]
      have he : 2 * ((secpP + 1) / 4) = (secpP - 1) / 2 + 1 := by omega
      rw [he, pow_succ]
    have hu2 : (y ^ ((secpP - 1) / 2)) ^ 2 = 1 := by
      rw [← pow_mul]
      have he : (secpP - 1) / 2 * 2 = secpP - 1 := by omega
      rw [he]
      exact ZMod.pow_card_sub_one_eq_one hy
    have hu : y ^ ((secpP - 1) / 2) = 1 ∨ y ^ ((secpP - 1) / 2) = -1 := by
      have hfac : (y ^ ((secpP - 1) / 2) - 1) * (y ^ ((secpP - 1) / 2) + 1) = 0 := by
        linear_combination hu2
      rcases mul_eq_zero.mp hfac with h1 | h1
      · left; linear_combination h1
      · right; linear_combination h1
    rw [hcast, hpow2]
    rcases hu with h1 | h1
    · left; rw [h1, one_mul]
    · right; rw [h1]; ring

/-- The secp256k1 base point as a Mathlib point. -/
def secpGpt : secpW.Point :=
  WeierstrassCurve.Affine.Point.some
    (nonsingular_of_eq (x := (secpGx : Fp)) (y := (secpGy : Fp)) (by decide))

/-- `secpG` is the shadow of the Mathlib base point. -/
lemma fromPoint_secpG : fromPoint secpGpt = secpG := rfl

/-- Multiplying a decompressed point (the point or its negation) gives
the scalar multiple up to sign, with the same x-coordinate. -/
lemma ecMul_pm (d : Nat) (S : secpW.Point) (x y ysign : Fp)
    (hS : fromPoint S = some (x, y)) (hy : ysign = y ∨ ysign = -y) :
    (fromPoint (d • S) = none → ecMul d (some (x, ysign)) = none) ∧
    (∀ xT yT, fromPoint (d • S) = some (xT, yT) →
      ecMul d (some (x, ysign)) = some (xT, yT) ∨
      ecMul d (some (x, ysign)) = some (xT, -yT)) := by
  have hnegY : ∀ a b : Fp, secpW.negY a b = -b := fun a b => by
    simp [secpW, WeierstrassCurve.Affine.negY]
  have hpt : some (x, ysign) = fromPoint S ∨ some (x, ysign) = fromPoint (-S) := by
    cases S with
    | zero => simp [fromPoint] at hS
    | @some x0 y0 h' =>
      simp only [fromPoint, Option.some.injEq, Prod.mk.injEq] at hS
      obtain ⟨rfl, rfl⟩ := hS
      rcases hy with rfl | rfl
      · left; rfl
      · right
        rw [WeierstrassCurve.Affine.Point.neg_some]
        show (some (x0, -y0) : Pt) = some (x0, secpW.negY x0 y0)
        rw [hnegY]
  rcases hpt with hpt | hpt
  · rw [hpt, fromPoint_mul]
    exact ⟨fun h0 => h0, fun xT yT hT => Or.inl hT⟩
  · rw [hpt, fromPoint_mul, neg_nsmul]
    constructor
    · intro h0
      cases hT : (d • S) with
      | zero => rfl
      | @some xT yT h' => rw [hT] at h0; simp [fromPoint] at h0
    · intro xT yT hT
      right
      cases hTT : (d • S) with
      | zero => rw [hTT] at hT; simp [fromPoint] at hT
      | @some x1 y1 h' =>
        rw [hTT] at hT
        simp only [fromPoint, Option.some.injEq, Prod.mk.injEq] at hT
        obtain ⟨rfl, rfl⟩ := hT
        rw [WeierstrassCurve.Affine.Point.neg_some]
        show (some (x1, secpW.negY x1 y1) : Pt) = some (x1, -y1)
        rw [hnegY]

/-- Inversion of a successful `getPublicKey`. -/
lemma getPublicKey_inv (privHex pubHex : JStr)
    (h : getPublicKey privHex = .ok pubHex) :
    ∃ (pb : Bytes) (x y : Fp),
      hexToBytes privHex = .ok pb ∧ pb.length = 32 ∧
      0 < beNat pb ∧ beNat pb < secpN ∧
      fromPoint (beNat pb • secpGpt) = some (x, y) ∧
      pubHex = bytesToHex (natToBytesBE 32 x.val) := by
  unfold getPublicKey at h
  cases hpb : hexToBytes privHex with
  | error e => rw [hpb] at h; simp at h
  | ok pb =>
    rw [hpb] at h
    dsimp only at h
    by_cases hlen : pb.length ≠ 32
    · rw [if_pos hlen] at h; simp at h
    · rw [if_neg hlen] at h
      by_cases hval : beNat pb = 0 ∨ secpN ≤ beNat pb
      · rw [if_pos hval] at h; simp at h
      · rw [if_neg hval] at h
        have hmul : ecMul (beNat pb) secpG = fromPoint (beNat pb • secpGpt) := by
          rw [← fromPoint_secpG, fromPoint_mul]
        rw [hmul] at h
        cases hT : fromPoint (beNat pb • secpGpt) with
        | none => rw [hT] at h; simp at h
        | some xy =>
          obtain ⟨x, y⟩ := xy
          rw [hT] at h
          dsimp only at h
          refine ⟨pb, x, y, rfl, by omega, by omega, by omega, hT, ?_⟩
          exact (Except.ok.inj h).symm

/-- Evaluation of `getSharedSecret` on a compressed counterparty key:
the result is determined by the scalar multiple of the counterparty's
point, up to the sign of its y-coordinate. -/
lemma getSharedSecret_eval (pb : Bytes) (hlen : pb.length = 32)
    (h0 : 0 < beNat pb) (hN : beNat pb < secpN)
    (S : secpW.Point) (x y : Fp) (hS : fromPoint S = some (x, y)) :
    (fromPoint (beNat pb • S) = none →
      getSharedSecret pb (2 :: natToBytesBE 32 x.val) = .error "Point at infinity") ∧
    (∀ xT yT, fromPoint (beNat pb • S) = some (xT, yT) →
      ∃ pre, getSharedSecret pb (2 :: natToBytesBE 32 x.val) =
        .ok (pre :: natToBytesBE 32 xT.val)) := by
  have hcurve : y ^ 2 = x ^ 3 + 7 := by
    cases S with
    | zero => simp [fromPoint] at hS
    | @some x0 y0 h' =>
      simp only [fromPoint, Option.some.injEq, Prod.mk.injEq] at hS
      obtain ⟨rfl, rfl⟩ := hS
      exact eq_of_nonsingular h'
  have hxval : x.val < 256 ^ 32 :=
    lt_of_lt_of_le (ZMod.val_lt x) (by norm_num [secpP])
  simp only [getSharedSecret]
  rw [if_neg (by omega), if_neg (by omega),
    if_neg (by simp [natToBytesBE_length])]
  simp only [List.headD_cons]
  rw [if_neg (by simp),
    show List.drop 1 (2 :: natToBytesBE 32 x.val) = natToBytesBE 32 x.val from rfl,
    beNat_natToBytesBE 32 x.val hxval,
    if_neg (not_le.mpr (ZMod.val_lt x)),
    ZMod.natCast_rightInverse x, ← hcurve]
  rcases sqrtF_sq y with hy0 | hy0 <;> rw [hy0]
  · rw [if_neg (by simp)]
    have hml := ecMul_pm (beNat pb) S x y
      (if y.val % 2 = 0 ↔ True then y else -y) hS
      (by split
          · exact Or.inl rfl
          · exact Or.inr rfl)
    constructor
    · intro hnone
      rw [hml.1 hnone]
    · intro xT yT hTT
      rcases hml.2 xT yT hTT with heq | heq <;> rw [heq]
      · exact ⟨_, rfl⟩
      · exact ⟨_, rfl⟩
  · rw [if_neg (by simp [neg_sq])]
    have hml := ecMul_pm (beNat pb) S x y
      (if (-y).val % 2 = 0 ↔ True then -y else - -y) hS
      (by split
          · exact Or.inr rfl
          · exact Or.inl (neg_neg y))
    constructor
    · intro hnone
      rw [hml.1 hnone]
    · intro xT yT hTT
      rcases hml.2 xT yT hTT with heq | heq <;> rw [heq]
      · exact ⟨_, rfl⟩
      · exact ⟨_, rfl⟩

/-! ## Theorems -/

/-! ### Padding lemmas -/

/-- Disjoint or is addition: `a <<< n ||| b = a·2ⁿ + b` for `b < 2ⁿ`. -/
lemma lor_shift_add : ∀ (n a b : Nat), b < 2 ^ n → a <<< n ||| b = a * 2 ^ n + b := by
  intro n
  induction n with
  | zero =>
    intro a b h
    interval_cases b
    simp
  | succ n ih =>
    intro a b h
    have hb : b = Nat.bit (decide (b % 2 = 1)) (b / 2) := by
      rcases Nat.mod_two_eq_zero_or_one b with h2 | h2 <;>
        simp [Nat.bit_val, h2] <;> omega
    have ha : a <<< (n + 1) = Nat.bit false (a <<< n) := by
      simp [Nat.bit_val, Nat.shiftLeft_succ]
    rw [hb, ha, Nat.lor_bit]
    have hdiv : b / 2 < 2 ^ n := by
      have := Nat.pow_succ 2 n
      omega
    rw [ih a (b / 2) hdiv]
    rcases Nat.mod_two_eq_zero_or_one b with h2 | h2 <;>
      simp [Nat.bit_val, h2, Nat.pow_succ] <;> ring_nf

/-- `log2Fuel` computes the floor logarithm when given enough fuel. -/
lemma log2Fuel_bounds : ∀ (fuel n : Nat), n ≤ fuel → 1 ≤ n →
    2 ^ log2Fuel fuel n ≤ n ∧ n < 2 ^ (log2Fuel fuel n + 1) := by
  intro fuel
  induction fuel with
  | zero => intro n h h1; omega
  | succ f ih =>
    intro n h h1
    by_cases h2 : 2 ≤ n
    · have hle : n / 2 ≤ f := by omega
      have h1' : 1 ≤ n / 2 := by omega
      obtain ⟨ihl, ihr⟩ := ih (n / 2) hle h1'
      have hstep : log2Fuel (f + 1) n = log2Fuel f (n / 2) + 1 := by
        simp [log2Fuel, h2]
      rw [hstep]
      constructor
      · have : 2 ^ (log2Fuel f (n / 2) + 1) = 2 * 2 ^ log2Fuel f (n / 2) := by
          rw [Nat.pow_succ]; ring
        omega
      · have : 2 ^ (log2Fuel f (n / 2) + 1 + 1) = 2 * 2 ^ (log2Fuel f (n / 2) + 1) := by
          rw [Nat.pow_succ]; ring
        omega
    · have hstep : log2Fuel (f + 1) n = 0 := by
        simp [log2Fuel, h2]
      rw [hstep]
      omega

/-- Bounds for `log2floor`. -/
lemma log2floor_bounds (n : Nat) (h : 1 ≤ n) :
    2 ^ log2floor n ≤ n ∧ n < 2 ^ (log2floor n + 1) :=
  log2Fuel_bounds n n le_rfl h

/-- The spec's padded-length bucket: 32 up to 32 bytes, otherwise
`chunk × (⌊(n−1)/chunk⌋ + 1)` where `chunk` derives from the next power
of two ≥ `n`.  This is the specification sentence, to be compared with
the source's `calcPaddedLen`. -/
def specBucket (n : Nat) : Nat :=
  if n ≤ 32 then 32
  else
    let p := 2 ^ Nat.clog 2 n
    let chunk := if p ≤ 256 then 32 else p / 8
    chunk * ((n - 1) / chunk + 1)

/-- On the real domain, `calcPaddedLen` is the spec bucket and the bucket
dominates the input length, stays at least 32 and (for lengths up to
65535) at most 65536. -/
lemma calcPaddedLen_ok (n : Nat) (h1 : 1 ≤ n) (h2 : n ≤ 65535) :
    calcPaddedLen n = .ok (specBucket n) ∧
    n ≤ specBucket n ∧ 32 ≤ specBucket n ∧ specBucket n ≤ 65536 := by
  by_cases h32 : n ≤ 32
  · have hs : specBucket n = 32 := by
      simp only [specBucket]
      rw [if_pos h32]
    have hc : calcPaddedLen n = .ok 32 := by
      simp only [calcPaddedLen]
      rw [if_neg (by omega), if_pos h32]
    rw [hs, hc]
    exact ⟨rfl, by omega, by omega, by omega⟩
  · -- n ≥ 33
    have h1' : 1 ≤ n - 1 := by omega
    obtain ⟨hlo, hhi⟩ := log2floor_bounds (n - 1) h1'
    set l := log2floor (n - 1) with hl
    have hnp : (1 : Nat) <<< (l + 1) = 2 ^ (l + 1) := by
      rw [Nat.shiftLeft_eq]; ring
    -- the next power of two ≥ n agrees with the spec's clog form
    have hclog : Nat.clog 2 n = l + 1 := by
      have hub : Nat.clog 2 n ≤ l + 1 :=
        (Nat.le_pow_iff_clog_le Nat.one_lt_two).mp (by omega)
      have hlb : ¬ (Nat.clog 2 n ≤ l) := by
        intro hc
        have : n ≤ 2 ^ l := (Nat.le_pow_iff_clog_le Nat.one_lt_two).mpr hc
        omega
      omega
    have hCalc : calcPaddedLen n =
        .ok (let chunk := if 2 ^ (l + 1) ≤ 256 then 32 else 2 ^ (l + 1) / 8
             chunk * ((n - 1) / chunk + 1)) := by
      simp only [calcPaddedLen, hnp]
      rw [if_neg (by omega), if_neg (by omega)]
    have hSpec : specBucket n =
        (let chunk := if 2 ^ (l + 1) ≤ 256 then 32 else 2 ^ (l + 1) / 8
         chunk * ((n - 1) / chunk + 1)) := by
      simp only [specBucket, hclog]
      rw [if_neg (by omega)]
    by_cases hpow : 2 ^ (l + 1) ≤ 256
    · -- small chunk: 32
      have hq : 32 * ((n - 1) / 32) + (n - 1) % 32 = n - 1 := Nat.div_add_mod (n - 1) 32
      have hr : (n - 1) % 32 < 32 := Nat.mod_lt _ (by omega)
      have hval : (let chunk := if 2 ^ (l + 1) ≤ 256 then 32 else 2 ^ (l + 1) / 8
          chunk * ((n - 1) / chunk + 1)) = 32 * ((n - 1) / 32) + 32 := by
        simp only [if_pos hpow]
        ring
      have hdle : (n - 1) / 32 ≤ 7 := by
        have : n - 1 < 32 * 8 := by omega
        omega
      refine ⟨by rw [hCalc, hSpec], ?_, ?_, ?_⟩ <;> rw [hSpec, hval] <;> omega
    · -- large chunk: 2^(l+1)/8 = 2^(l-2)
      have hl8 : 8 < l + 1 := by
        by_contra hc
        have : 2 ^ (l + 1) ≤ 2 ^ 8 := Nat.pow_le_pow_right (by omega) (by omega)
        simp at this
        omega
      obtain ⟨k, hk⟩ : ∃ k, l + 1 = k + 3 := ⟨l - 2, by omega⟩
      have hchunk : 2 ^ (l + 1) / 8 = 2 ^ k := by
        rw [hk, Nat.pow_add]
        norm_num
      have h8c : 2 ^ (l + 1) = 8 * 2 ^ k := by
        rw [hk, Nat.pow_add]
        ring
      have hcpos : 0 < 2 ^ k := Nat.pos_pow_of_pos k (by omega)
      have hq : 2 ^ k * ((n - 1) / 2 ^ k) + (n - 1) % 2 ^ k = n - 1 :=
        Nat.div_add_mod (n - 1) (2 ^ k)
      have hr : (n - 1) % 2 ^ k < 2 ^ k := Nat.mod_lt _ hcpos
      have hdle : (n - 1) / 2 ^ k ≤ 7 := by
        have hlt : (n - 1) / 2 ^ k < 8 :=
          (Nat.div_lt_iff_lt_mul hcpos).mpr (by omega)
        omega
      have hval : (let chunk := if 2 ^ (l + 1) ≤ 256 then 32 else 2 ^ (l + 1) / 8
          chunk * ((n - 1) / chunk + 1)) = 2 ^ k * ((n - 1) / 2 ^ k) + 2 ^ k := by
        simp only [if_neg hpow, hchunk]
        ring
      have hl15 : l ≤ 15 := by
        by_contra hc
        have : 2 ^ 16 ≤ 2 ^ l := Nat.pow_le_pow_right (by omega) (by omega)
        simp at this
        omega
      have hcap : 2 ^ (l + 1) ≤ 65536 := by
        calc 2 ^ (l + 1) ≤ 2 ^ 16 := Nat.pow_le_pow_right (by omega) (by omega)
        _ = 65536 := by norm_num
      have hck : 2 ^ k ≥ 64 := by
        have : 2 ^ 6 ≤ 2 ^ k := Nat.pow_le_pow_right (by omega) (by omega)
        simpa using this
      have hprod : 2 ^ k * ((n - 1) / 2 ^ k) ≤ 2 ^ k * 7 :=
        Nat.mul_le_mul_left _ hdle
      refine ⟨by rw [hCalc, hSpec], ?_, ?_, ?_⟩ <;> rw [hSpec, hval] <;> omega

/-- `pad` on the valid domain: the explicit padded byte list. -/
lemma pad_ok (s : Bytes) (h1 : 1 ≤ s.length) (h2 : s.length ≤ 65535) :
    pad s = .ok ([s.length >>> 8 &&& 255, s.length &&& 255] ++ s ++
      List.replicate (specBucket s.length - s.length) 0) := by
  obtain ⟨hok, _, _, _⟩ := calcPaddedLen_ok s.length h1 h2
  simp only [pad, hok]
  rw [if_neg (by omega)]
  simp

/-- The length-prefix bytes reconstruct the length. -/
lemma prefix_reconstruct (len : Nat) (h : len < 65536) :
    (len >>> 8 &&& 255) <<< 8 ||| (len &&& 255) = len := by
  have ha : len >>> 8 &&& 255 = len / 256 := by
    rw [Nat.shiftRight_eq_div_pow]
    have := Nat.and_pow_two_sub_one_eq_mod (len / 2 ^ 8) 8
    norm_num at this ⊢
    rw [this]
    omega
  have hb : len &&& 255 = len % 256 := by
    have := Nat.and_pow_two_sub_one_eq_mod len 8
    norm_num at this ⊢
    exact this
  rw [ha, hb, lor_shift_add 8 (len / 256) (len % 256) (by norm_num [Nat.mod_lt])]
  norm_num
  omega

/-- `unpad` inverts `pad` on the valid domain. -/
lemma unpad_pad (s : Bytes) (h1 : 1 ≤ s.length) (h2 : s.length ≤ 65535) :
    ∃ p, pad s = .ok p ∧ unpad p = .ok s := by
  obtain ⟨hok, hge, _, _⟩ := calcPaddedLen_ok s.length h1 h2
  refine ⟨_, pad_ok s h1 h2, ?_⟩
  set len := s.length with hlen
  set pref : Bytes := [len >>> 8 &&& 255, len &&& 255] with hpref
  have hget0 : (pref ++ s ++ List.replicate (specBucket len - len) 0).getD 0 0 =
      len >>> 8 &&& 255 := rfl
  have hget1 : (pref ++ s ++ List.replicate (specBucket len - len) 0).getD 1 0 =
      len &&& 255 := rfl
  have hrec : (len >>> 8 &&& 255) <<< 8 ||| (len &&& 255) = len :=
    prefix_reconstruct len (by omega)
  have hplen : (pref ++ s ++ List.replicate (specBucket len - len) 0).length =
      2 + specBucket len := by
    simp [hpref]
    omega
  have htail : ((pref ++ s ++ List.replicate (specBucket len - len) 0).drop 2).take len
      = s := by
    rw [List.append_assoc]
    have hp2 : pref.length = 2 := rfl
    rw [← hp2, List.drop_left, hlen, List.take_left]
  simp only [unpad, hget0, hget1, hrec]
  rw [if_neg (by omega), if_neg (by omega), hok]
  dsimp only
  rw [if_neg (by simp [hpref]; omega), htail]

/-- Membership in the transition table computes like `List.contains`. -/
lemma contains_valid_iff (s t : PaymentState) :
    (VALID_TRANSITIONS s).contains t = true ↔ t ∈ VALID_TRANSITIONS s := by
  cases s <;> cases t <;> simp [VALID_TRANSITIONS]

/-! ### Length and byte-bound lemmas for the encryption pipeline -/

/-- Bind of a `some` reduces to the continuation. -/
lemma some_bind {α β : Type} (v : α) (f : α → Option β) :
    (some v >>= f : Option β) = f v := rfl

lemma wordToBytesLE_lt (w : Nat) : ∀ b ∈ wordToBytesLE w, b < 256 := by
  intro b hb
  simp only [wordToBytesLE, List.mem_cons, List.not_mem_nil, or_false] at hb
  rcases hb with rfl | rfl | rfl | rfl <;> exact Nat.mod_lt _ (by norm_num)

lemma wordToBytesBE_lt (w : Nat) : ∀ b ∈ wordToBytesBE w, b < 256 := by
  intro b hb
  simp only [wordToBytesBE, List.mem_cons, List.not_mem_nil, or_false] at hb
  rcases hb with rfl | rfl | rfl | rfl <;> exact Nat.mod_lt _ (by norm_num)

lemma wordsToBytesLE_length (ws : List Nat) :
    (wordsToBytesLE ws).length = 4 * ws.length := by
  induction ws with
  | nil => rfl
  | cons w ws ih =>
    simp only [wordsToBytesLE, List.flatMap_cons, List.length_append,
      List.length_cons] at *
    simp only [wordToBytesLE, List.length_cons, List.length_nil]
    omega

lemma wordsToBytesBE_length (ws : List Nat) :
    (wordsToBytesBE ws).length = 4 * ws.length := by
  induction ws with
  | nil => rfl
  | cons w ws ih =>
    simp only [wordsToBytesBE, List.flatMap_cons, List.length_append,
      List.length_cons] at *
    simp only [wordToBytesBE, List.length_cons, List.length_nil]
    omega

lemma wordsToBytesLE_lt (ws : List Nat) : ∀ b ∈ wordsToBytesLE ws, b < 256 := by
  induction ws with
  | nil => intro b hb; simp [wordsToBytesLE] at hb
  | cons w ws ih =>
    intro b hb
    simp only [wordsToBytesLE, List.flatMap_cons, List.mem_append] at hb
    rcases hb with hb | hb
    · exact wordToBytesLE_lt w b hb
    · exact ih b hb

lemma wordsToBytesBE_lt (ws : List Nat) : ∀ b ∈ wordsToBytesBE ws, b < 256 := by
  induction ws with
  | nil => intro b hb; simp [wordsToBytesBE] at hb
  | cons w ws ih =>
    intro b hb
    simp only [wordsToBytesBE, List.flatMap_cons, List.mem_append] at hb
    rcases hb with hb | hb
    · exact wordToBytesBE_lt w b hb
    · exact ih b hb

lemma bytesToWordsLE_length : ∀ (bs : Bytes), (bytesToWordsLE bs).length = bs.length / 4 := by
  intro bs
  induction bs using bytesToWordsLE.induct with
  | case1 b0 b1 b2 b3 rest ih =>
    simp only [bytesToWordsLE, List.length_cons]
    omega
  | case2 bs h =>
    rcases bs with _ | ⟨a, _ | ⟨b, _ | ⟨c, _ | ⟨d, r⟩⟩⟩⟩
    · simp [bytesToWordsLE]
    · simp [bytesToWordsLE]
    · simp [bytesToWordsLE]
    · simp [bytesToWordsLE]
    · exact absurd rfl (h a b c d r)

lemma sha256_foldl_length (chunks : List Bytes) :
    ∀ acc : List Nat, acc.length = 8 →
      (chunks.foldl sha256Compress acc).length = 8 := by
  induction chunks with
  | nil => exact fun acc h => h
  | cons c cs ih =>
    intro acc h
    rw [List.foldl_cons]
    exact ih _ rfl

lemma sha256_length (msg : Bytes) : (sha256 msg).length = 32 := by
  rw [sha256, wordsToBytesBE_length, sha256_foldl_length _ sha256H0 rfl]

lemma sha256_lt (msg : Bytes) : ∀ b ∈ sha256 msg, b < 256 := by
  rw [sha256]
  exact wordsToBytesBE_lt _

lemma hmac_length (key msg : Bytes) : (hmac key msg).length = 32 := by
  simp only [hmac]
  exact sha256_length _

lemma hmac_lt (key msg : Bytes) : ∀ b ∈ hmac key msg, b < 256 := by
  simp only [hmac]
  exact sha256_lt _

lemma hkdfExpandBlocks_length :
    ∀ (f : Nat) (prk info prev : Bytes) (i : Nat),
      (hkdfExpandBlocks f prk info prev i).length = 32 * f := by
  intro f
  induction f with
  | zero => intro prk info prev i; rfl
  | succ n ih =>
    intro prk info prev i
    simp only [hkdfExpandBlocks, List.length_append, hmac_length, ih]
    omega

lemma hkdfExpandBlocks_lt :
    ∀ (f : Nat) (prk info prev : Bytes) (i : Nat),
      ∀ b ∈ hkdfExpandBlocks f prk info prev i, b < 256 := by
  intro f
  induction f with
  | zero => intro prk info prev i b hb; simp [hkdfExpandBlocks] at hb
  | succ n ih =>
    intro prk info prev i b hb
    simp only [hkdfExpandBlocks, List.mem_append] at hb
    rcases hb with hb | hb
    · exact hmac_lt _ _ b hb
    · exact ih _ _ _ _ b hb

lemma hkdfExpand_length (prk info : Bytes) (len : Nat) :
    (hkdfExpand prk info len).length = len := by
  simp only [hkdfExpand, List.length_take, hkdfExpandBlocks_length]
  omega

lemma hkdfExpand_lt (prk info : Bytes) (len : Nat) :
    ∀ b ∈ hkdfExpand prk info len, b < 256 := by
  intro b hb
  exact hkdfExpandBlocks_lt _ _ _ _ _ b (List.take_subset _ _ hb)

/-! ### ChaCha20 structure lemmas -/

lemma chachaQR_length (st : List Nat) (a b c d : Nat) :
    (chachaQR st a b c d).length = st.length := by
  simp [chachaQR, List.length_set]

lemma chachaDoubleRound_length (st : List Nat) :
    (chachaDoubleRound st).length = st.length := by
  simp [chachaDoubleRound, chachaQR_length]

lemma chachaRounds_length : ∀ (f : Nat) (st : List Nat),
    (chachaRounds f st).length = st.length := by
  intro f
  induction f with
  | zero => intro st; rfl
  | succ n ih =>
    intro st
    simp only [chachaRounds]
    rw [ih, chachaDoubleRound_length]

lemma chachaBlock_length (key nonce : Bytes) (counter : Nat)
    (hk : key.length = 32) (hn : nonce.length = 12) :
    (chachaBlock key nonce counter).length = 64 := by
  simp only [chachaBlock]
  rw [wordsToBytesLE_length, List.length_zipWith, chachaRounds_length]
  have h1 : (bytesToWordsLE key).length = 8 := by rw [bytesToWordsLE_length, hk]
  have h2 : (bytesToWordsLE nonce).length = 3 := by rw [bytesToWordsLE_length, hn]
  simp [h1, h2]

lemma chachaBlocks_length :
    ∀ (f : Nat) (key nonce : Bytes) (c : Nat), key.length = 32 → nonce.length = 12 →
      (chachaBlocks f key nonce c).length = 64 * f := by
  intro f
  induction f with
  | zero => intro key nonce c _ _; rfl
  | succ n ih =>
    intro key nonce c hk hn
    simp only [chachaBlocks, List.length_append]
    rw [chachaBlock_length key nonce c hk hn, ih key nonce (c + 1) hk hn]
    omega

lemma chachaBlocks_lt :
    ∀ (f : Nat) (key nonce : Bytes) (c : Nat),
      ∀ b ∈ chachaBlocks f key nonce c, b < 256 := by
  intro f
  induction f with
  | zero => intro key nonce c b hb; simp [chachaBlocks] at hb
  | succ n ih =>
    intro key nonce c b hb
    simp only [chachaBlocks, List.mem_append] at hb
    rcases hb with hb | hb
    · simp only [chachaBlock] at hb
      exact wordsToBytesLE_lt _ b hb
    · exact ih _ _ _ b hb

lemma chachaKeystream_length (key nonce : Bytes) (len : Nat)
    (hk : key.length = 32) (hn : nonce.length = 12) :
    (chachaKeystream key nonce len).length = len := by
  simp only [chachaKeystream, List.length_take]
  rw [chachaBlocks_length _ _ _ _ hk hn]
  omega

lemma chachaKeystream_lt (key nonce : Bytes) (len : Nat) :
    ∀ b ∈ chachaKeystream key nonce len, b < 256 := by
  intro b hb
  exact chachaBlocks_lt _ _ _ _ b (List.take_subset _ _ hb)

lemma chacha20_length (key nonce data : Bytes)
    (hk : key.length = 32) (hn : nonce.length = 12) :
    (chacha20 key nonce data).length = data.length := by
  simp only [chacha20, List.length_zipWith]
  rw [chachaKeystream_length _ _ _ hk hn]
  omega

lemma zipWith_xor_lt :
    ∀ (a s : List Nat), (∀ x ∈ a, x < 256) → (∀ x ∈ s, x < 256) →
      ∀ y ∈ List.zipWith (fun p q => p ^^^ q) a s, y < 256 := by
  intro a
  induction a with
  | nil => intro s _ _ y hy; simp at hy
  | cons x xs ih =>
    intro s ha hs y hy
    cases s with
    | nil => simp at hy
    | cons z zs =>
      simp only [List.zipWith_cons_cons, List.mem_cons] at hy
      rcases hy with rfl | hy
      · have h8 : (256 : Nat) = 2 ^ 8 := by norm_num
        rw [h8]
        exact Nat.xor_lt_two_pow (by rw [← h8]; exact ha x (by simp))
          (by rw [← h8]; exact hs z (by simp))
      · exact ih zs (fun u hu => ha u (by simp [hu])) (fun u hu => hs u (by simp [hu])) y hy

lemma chacha20_lt (key nonce data : Bytes) (hd : ∀ b ∈ data, b < 256) :
    ∀ b ∈ chacha20 key nonce data, b < 256 := by
  simp only [chacha20]
  exact zipWith_xor_lt _ _ hd (chachaKeystream_lt _ _ _)

lemma zip_xor_cancel :
    ∀ (a s : List Nat), a.length ≤ s.length →
      List.zipWith (fun p q => p ^^^ q) (List.zipWith (fun p q => p ^^^ q) a s) s = a := by
  intro a
  induction a with
  | nil => intro s _; simp
  | cons x xs ih =>
    intro s h
    cases s with
    | nil => simp at h
    | cons z zs =>
      simp only [List.zipWith_cons_cons]
      rw [ih zs (by simpa using h), Nat.xor_cancel_right]

lemma chacha20_involution (key nonce data : Bytes)
    (hk : key.length = 32) (hn : nonce.length = 12) :
    chacha20 key nonce (chacha20 key nonce data) = data := by
  simp only [chacha20]
  rw [List.length_zipWith, chachaKeystream_length _ _ _ hk hn, Nat.min_self]
  exact zip_xor_cancel data _ (by rw [chachaKeystream_length _ _ _ hk hn])

/-! ### Base64 round trip -/

lemma b64Val_b64Char (n : Nat) (h : n < 64) : b64Val (b64Char n) = some n := by
  interval_cases n <;> rfl

lemma b64Char_ne_pad (n : Nat) (h : n < 64) : b64Char n ≠ '=' := by
  interval_cases n <;> decide

lemma b64Char_not_ws (n : Nat) (h : n < 64) : isB64Ws (b64Char n) = false := by
  interval_cases n <;> decide

lemma btoa_mem_char : ∀ (bs : Bytes), (∀ b ∈ bs, b < 256) →
    ∀ c ∈ btoa bs, c = '=' ∨ ∃ n, n < 64 ∧ c = b64Char n := by
  intro bs
  induction bs using btoa.induct with
  | case1 => intro _ c hc; simp [btoa] at hc
  | case2 b0 =>
    intro h c hc
    have hb0 : b0 < 256 := h b0 (by simp)
    simp only [btoa, List.mem_cons, List.not_mem_nil, or_false] at hc
    rcases hc with rfl | rfl | rfl | rfl
    · exact Or.inr ⟨b0 / 4, by omega, rfl⟩
    · exact Or.inr ⟨b0 % 4 * 16, by omega, rfl⟩
    · exact Or.inl rfl
    · exact Or.inl rfl
  | case3 b0 b1 =>
    intro h c hc
    have hb0 : b0 < 256 := h b0 (by simp)
    have hb1 : b1 < 256 := h b1 (by simp)
    simp only [btoa, List.mem_cons, List.not_mem_nil, or_false] at hc
    rcases hc with rfl | rfl | rfl | rfl
    · exact Or.inr ⟨b0 / 4, by omega, rfl⟩
    · exact Or.inr ⟨b0 % 4 * 16 + b1 / 16, by omega, rfl⟩
    · exact Or.inr ⟨b1 % 16 * 4, by omega, rfl⟩
    · exact Or.inl rfl
  | case4 b0 b1 b2 rest ih =>
    intro h c hc
    have hb0 : b0 < 256 := h b0 (by simp)
    have hb1 : b1 < 256 := h b1 (by simp)
    have hb2 : b2 < 256 := h b2 (by simp)
    simp only [btoa, List.cons_append, List.nil_append, List.mem_cons,
      List.mem_append] at hc
    rcases hc with rfl | rfl | rfl | rfl | hc
    · exact Or.inr ⟨b0 / 4, by omega, rfl⟩
    · exact Or.inr ⟨b0 % 4 * 16 + b1 / 16, by omega, rfl⟩
    · exact Or.inr ⟨b1 % 16 * 4 + b2 / 64, by omega, rfl⟩
    · exact Or.inr ⟨b2 % 64, by omega, rfl⟩
    · exact ih (fun b hb => h b (by simp [hb])) c hc

lemma btoa_no_ws (bs : Bytes) (hb : ∀ b ∈ bs, b < 256) :
    ∀ c ∈ btoa bs, (! isB64Ws c) = true := by
  intro c hc
  rcases btoa_mem_char bs hb c hc with rfl | ⟨n, hn, rfl⟩
  · decide
  · simp [b64Char_not_ws n hn]

lemma btoa_length : ∀ (bs : Bytes), (btoa bs).length = 4 * ((bs.length + 2) / 3) := by
  intro bs
  induction bs using btoa.induct with
  | case1 => rfl
  | case2 b0 => simp [btoa]
  | case3 b0 b1 => simp [btoa]
  | case4 b0 b1 b2 rest ih =>
    simp only [btoa, List.cons_append, List.nil_append, List.length_cons,
      List.length_append]
    rw [ih]
    omega

lemma btoa_head (b0 : Nat) (rest : Bytes) :
    (btoa (b0 :: rest)).headD ' ' = b64Char (b0 / 4) := by
  rcases rest with _ | ⟨b1, _ | ⟨b2, r⟩⟩ <;> rfl

lemma stripPad_two (s r : List Char) (h : s.reverse = '=' :: '=' :: r) :
    stripPad s = r.reverse := by
  unfold stripPad
  rw [h]
  rfl

lemma stripPad_one (s : List Char) (c : Char) (r : List Char) (hc : c ≠ '=')
    (h : s.reverse = '=' :: c :: r) : stripPad s = (c :: r).reverse := by
  unfold stripPad
  rw [h]
  split
  · next r2 heq =>
    exfalso
    injection heq with h1 h2
    injection h2 with h3 h4
    exact hc h3
  · next r2 heq =>
    injection heq with h1 h2
    rw [h2]
  · next hne1 hne2 =>
    exact absurd rfl (hne2 (c :: r))

lemma stripPad_keep (s : List Char) (h : ∀ r, s.reverse ≠ '=' :: r) :
    stripPad s = s := by
  unfold stripPad
  split
  · next r heq => exact absurd heq (h _)
  · next r heq => exact absurd heq (h _)
  · rfl

lemma stripPad_append (a b : List Char) (hb : 2 ≤ b.length) :
    stripPad (a ++ b) = a ++ stripPad b := by
  obtain ⟨x, y, t, hxy⟩ : ∃ x y t, b.reverse = x :: y :: t := by
    have hlen : 2 ≤ b.reverse.length := by simpa using hb
    rcases hrev : b.reverse with _ | ⟨x, _ | ⟨y, t⟩⟩
    · rw [hrev] at hlen
      simp only [List.length_nil] at hlen
      omega
    · rw [hrev] at hlen
      simp only [List.length_cons, List.length_nil] at hlen
      omega
    · exact ⟨x, y, t, rfl⟩
  have hab : (a ++ b).reverse = x :: y :: (t ++ a.reverse) := by
    rw [List.reverse_append, hxy]
    rfl
  by_cases hx : x = '='
  · by_cases hy : y = '='
    · subst hx
      subst hy
      rw [stripPad_two _ _ hab, stripPad_two _ _ hxy]
      simp [List.reverse_append]
    · subst hx
      rw [stripPad_one _ _ _ hy hab, stripPad_one _ _ _ hy hxy]
      simp [List.reverse_append]
  · have hne : ∀ r, (a ++ b).reverse ≠ '=' :: r := by
      intro r hq
      rw [hab] at hq
      injection hq with h1 _
      exact hx h1
    have hne2 : ∀ r, b.reverse ≠ '=' :: r := by
      intro r hq
      rw [hxy] at hq
      injection hq with h1 _
      exact hx h1
    rw [stripPad_keep _ hne, stripPad_keep _ hne2]

lemma atobCore_strip_btoa : ∀ (bs : Bytes), (∀ b ∈ bs, b < 256) →
    atobCore (stripPad (btoa bs)) = some bs := by
  intro bs
  induction bs using btoa.induct with
  | case1 => intro _; rfl
  | case2 b0 =>
    intro h
    have hb0 : b0 < 256 := h b0 (by simp)
    rw [show btoa [b0] = [b64Char (b0/4), b64Char (b0%4*16), '=', '='] from rfl]
    rw [stripPad_two [b64Char (b0/4), b64Char (b0%4*16), '=', '=']
      [b64Char (b0%4*16), b64Char (b0/4)] rfl]
    rw [show ([b64Char (b0%4*16), b64Char (b0/4)] : List Char).reverse
        = [b64Char (b0/4), b64Char (b0%4*16)] from rfl]
    simp only [atobCore, b64Val_b64Char (b0/4) (by omega),
      b64Val_b64Char (b0%4*16) (by omega), some_bind]
    have e1 : b0/4*4 + b0%4*16/16 = b0 := by omega
    rw [e1]
    rfl
  | case3 b0 b1 =>
    intro h
    have hb0 : b0 < 256 := h b0 (by simp)
    have hb1 : b1 < 256 := h b1 (by simp)
    rw [show btoa [b0, b1] = [b64Char (b0/4), b64Char (b0%4*16 + b1/16),
        b64Char (b1%16*4), '='] from rfl]
    rw [stripPad_one [b64Char (b0/4), b64Char (b0%4*16 + b1/16), b64Char (b1%16*4), '=']
        (b64Char (b1%16*4)) [b64Char (b0%4*16 + b1/16), b64Char (b0/4)]
        (b64Char_ne_pad _ (by omega)) rfl]
    rw [show ((b64Char (b1%16*4)) :: [b64Char (b0%4*16 + b1/16), b64Char (b0/4)]).reverse
        = [b64Char (b0/4), b64Char (b0%4*16 + b1/16), b64Char (b1%16*4)] from rfl]
    simp only [atobCore, b64Val_b64Char (b0/4) (by omega),
      b64Val_b64Char (b0%4*16 + b1/16) (by omega),
      b64Val_b64Char (b1%16*4) (by omega), some_bind]
    have e1 : b0/4*4 + (b0%4*16 + b1/16)/16 = b0 := by omega
    have e2 : (b0%4*16 + b1/16)%16*16 + b1%16*4/4 = b1 := by omega
    rw [e1, e2]
    rfl
  | case4 b0 b1 b2 rest ih =>
    intro h
    have hb0 : b0 < 256 := h b0 (by simp)
    have hb1 : b1 < 256 := h b1 (by simp)
    have hb2 : b2 < 256 := h b2 (by simp)
    have hrest : ∀ b ∈ rest, b < 256 := fun b hb => h b (by simp [hb])
    cases rest with
    | nil =>
      rw [show btoa [b0, b1, b2] = [b64Char (b0/4), b64Char (b0%4*16 + b1/16),
          b64Char (b1%16*4 + b2/64), b64Char (b2%64)] from rfl]
      have hne : ∀ r, ([b64Char (b0/4), b64Char (b0%4*16 + b1/16),
          b64Char (b1%16*4 + b2/64), b64Char (b2%64)] : List Char).reverse ≠ '=' :: r := by
        intro r hq
        rw [show ([b64Char (b0/4), b64Char (b0%4*16 + b1/16),
            b64Char (b1%16*4 + b2/64), b64Char (b2%64)] : List Char).reverse
          = [b64Char (b2%64), b64Char (b1%16*4 + b2/64),
             b64Char (b0%4*16 + b1/16), b64Char (b0/4)] from rfl] at hq
        injection hq with h1 _
        exact (b64Char_ne_pad (b2%64) (by omega)) h1
      rw [stripPad_keep _ hne]
      simp only [atobCore, b64Val_b64Char (b0/4) (by omega),
        b64Val_b64Char (b0%4*16 + b1/16) (by omega),
        b64Val_b64Char (b1%16*4 + b2/64) (by omega),
        b64Val_b64Char (b2%64) (by omega), some_bind, List.append_nil]
      have e1 : b0/4*4 + (b0%4*16 + b1/16)/16 = b0 := by omega
      have e2 : (b0%4*16 + b1/16)%16*16 + (b1%16*4 + b2/64)/4 = b1 := by omega
      have e3 : (b1%16*4 + b2/64)%4*64 + b2%64 = b2 := by omega
      rw [e1, e2, e3]
      rfl
    | cons r0 rtail =>
      have h2b : 2 ≤ (btoa (r0 :: rtail)).length := by
        rw [btoa_length, List.length_cons]
        omega
      rw [show btoa (b0 :: b1 :: b2 :: r0 :: rtail) = [b64Char (b0/4),
          b64Char (b0%4*16 + b1/16), b64Char (b1%16*4 + b2/64), b64Char (b2%64)]
          ++ btoa (r0 :: rtail) from rfl]
      rw [stripPad_append _ _ h2b]
      simp only [List.cons_append, List.nil_append]
      simp only [atobCore, b64Val_b64Char (b0/4) (by omega),
        b64Val_b64Char (b0%4*16 + b1/16) (by omega),
        b64Val_b64Char (b1%16*4 + b2/64) (by omega),
        b64Val_b64Char (b2%64) (by omega), some_bind, ih hrest]
      have e1 : b0/4*4 + (b0%4*16 + b1/16)/16 = b0 := by omega
      have e2 : (b0%4*16 + b1/16)%16*16 + (b1%16*4 + b2/64)/4 = b1 := by omega
      have e3 : (b1%16*4 + b2/64)%4*64 + b2%64 = b2 := by omega
      rw [e1, e2, e3]
      rfl

lemma atob_btoa (bs : Bytes) (hb : ∀ b ∈ bs, b < 256) :
    atob (btoa bs) = some bs := by
  simp only [atob]
  rw [List.filter_eq_self.mpr (btoa_no_ws bs hb)]
  rw [if_pos (by rw [btoa_length]; omega)]
  exact atobCore_strip_btoa bs hb

lemma getMessageKeys_ok (ck nonce : Bytes) (hck : ck.length = 32)
    (hn : nonce.length = 32) :
    getMessageKeys ck nonce = .ok ⟨(hkdfExpand ck nonce 76).take 32,
      ((hkdfExpand ck nonce 76).drop 32).take 12,
      ((hkdfExpand ck nonce 76).drop 44).take 32⟩ := by
  simp only [getMessageKeys]
  rw [if_neg (by rw [hck]; exact fun h => h rfl),
    if_neg (by rw [hn]; exact fun h => h rfl)]

lemma pad_bytes_lt (pt : Bytes) (hb : ∀ b ∈ pt, b < 256) :
    ∀ b ∈ ([pt.length >>> 8 &&& 255, pt.length &&& 255] ++ pt ++
      List.replicate (specBucket pt.length - pt.length) 0), b < 256 := by
  intro b hbm
  simp only [List.mem_append, List.mem_cons, List.not_mem_nil, or_false] at hbm
  rcases hbm with ((rfl | rfl) | hbm) | hbm
  · have h1 : pt.length >>> 8 &&& 255 ≤ 255 := Nat.and_le_right
    omega
  · have h1 : pt.length &&& 255 ≤ 255 := Nat.and_le_right
    omega
  · exact hb b hbm
  · rw [List.eq_of_mem_replicate hbm]
    norm_num

end BitCaptcha

open BitCaptcha in
/-- **C7.** For every valid secp256k1 key pair `(secA, pubA)` and
`(secB, pubB)` (hex secret keys whose public keys are computed by
`getPublicKey`), `getConversationKey secA pubB` equals
`getConversationKey secB pubA` — including the error case, the two sides
return the identical `Except` value. -/
theorem C7_conversation_key_symmetric :
    ∀ (privA pubA privB pubB : JStr),
      getPublicKey privA = .ok pubA → getPublicKey privB = .ok pubB →
      getConversationKey privA pubB = getConversationKey privB pubA := by
  intro privA pubA privB pubB hA hB
  obtain ⟨pbA, xA, yA, hpbA, hlenA, hA0, hAN, hptA, hpubA⟩ := getPublicKey_inv _ _ hA
  obtain ⟨pbB, xB, yB, hpbB, hlenB, hB0, hBN, hptB, hpubB⟩ := getPublicKey_inv _ _ hB
  rw [hpubA, hpubB]
  have evalA := getSharedSecret_eval pbA hlenA hA0 hAN _ xB yB hptB
  have evalB := getSharedSecret_eval pbB hlenB hB0 hBN _ xA yA hptA
  have hsmulA : beNat pbA • beNat pbB • secpGpt =
      (beNat pbA * beNat pbB) • secpGpt := smul_smul _ _ _
  have hsmulB : beNat pbB • beNat pbA • secpGpt =
      (beNat pbA * beNat pbB) • secpGpt := by
    rw [smul_smul, Nat.mul_comm]
  unfold getConversationKey
  rw [hpbA, hpbB,
    hexToBytes_02 _ (natToBytesBE_lt 32 xB.val),
    hexToBytes_02 _ (natToBytesBE_lt 32 xA.val)]
  dsimp only
  cases hT : fromPoint ((beNat pbA * beNat pbB) • secpGpt) with
  | none =>
    have e1 := evalA.1 (by rw [hsmulA]; exact hT)
    have e2 := evalB.1 (by rw [hsmulB]; exact hT)
    rw [e1, e2]
  | some xy =>
    obtain ⟨xT, yT⟩ := xy
    obtain ⟨preA, e1⟩ := evalA.2 xT yT (by rw [hsmulA]; exact hT)
    obtain ⟨preB, e2⟩ := evalB.2 xT yT (by rw [hsmulB]; exact hT)
    rw [e1, e2]
    rfl

open BitCaptcha in
/-- Witness for C7 with the secret key 1 on both sides (public key =
the base point's x-coordinate). -/
theorem C7_conversation_key_symmetric_witness :
    getPublicKey "0000000000000000000000000000000000000000000000000000000000000001".data
      = .ok "79be667ef9dcbbac55a06295ce870b07029bfcdb2dce28d959f2815b16f81798".data ∧
    getConversationKey
        "0000000000000000000000000000000000000000000000000000000000000001".data
        "79be667ef9dcbbac55a06295ce870b07029bfcdb2dce28d959f2815b16f81798".data =
      getConversationKey
        "0000000000000000000000000000000000000000000000000000000000000001".data
        "79be667ef9dcbbac55a06295ce870b07029bfcdb2dce28d959f2815b16f81798".data :=
  ⟨by rfl,
   C7_conversation_key_symmetric _ _ _ _ (by rfl) (by rfl)⟩

open BitCaptcha in
/-- **C6.** For every length `n` in `[1, 65535]`, `calcPaddedLen n` is
exactly the spec's bucket (32 when `n ≤ 32`, otherwise
`chunk × (⌊(n−1)/chunk⌋ + 1)` with `chunk` derived from the next power of
two ≥ `n`), and the bucket dominates `n`; `pad` fails for length 0 and
for lengths above 65535; and `unpad (pad s)` recovers exactly the
original bytes. -/
theorem C6_padding_bucket_roundtrip :
    (∀ n : Nat, 1 ≤ n → n ≤ 65535 →
      calcPaddedLen n = .ok (specBucket n) ∧ n ≤ specBucket n) ∧
    (∀ s : Bytes, s.length = 0 ∨ 65535 < s.length →
      pad s = .error "Invalid plaintext length") ∧
    (∀ s : Bytes, 1 ≤ s.length → s.length ≤ 65535 →
      ∃ p, pad s = .ok p ∧ unpad p = .ok s) := by
  refine ⟨fun n h1 h2 => ?_, fun s hs => ?_, fun s h1 h2 => unpad_pad s h1 h2⟩
  · obtain ⟨hok, hge, _, _⟩ := calcPaddedLen_ok n h1 h2
    exact ⟨hok, hge⟩
  · simp only [pad]
    rw [if_pos (by omega)]
    rfl

open BitCaptcha in
/-- Witness for C6 at the bucket boundary `n = 33` and a concrete
3-byte plaintext. -/
theorem C6_padding_bucket_roundtrip_witness :
    (calcPaddedLen 33 = .ok (specBucket 33) ∧ 33 ≤ specBucket 33) ∧
    (pad [] = .error "Invalid plaintext length") ∧
    (∃ p, pad [5, 6, 7] = .ok p ∧ unpad p = .ok [5, 6, 7]) :=
  ⟨C6_padding_bucket_roundtrip.1 33 (by decide) (by decide),
   C6_padding_bucket_roundtrip.2.1 [] (Or.inl rfl),
   C6_padding_bucket_roundtrip.2.2 [5, 6, 7] (by decide) (by decide)⟩

open BitCaptcha in
/-- **C4 counterexample.** The claim says `verifyPreimage` returns
`false` (not `true`) for any single-bit change in the preimage.  But the
single-bit change `'0' → 'p'` (bit 6 of the first character of the
preimage `"00"`) makes the string invalid hex, and `verifyPreimage`
throws an invalid-hex error instead of returning `false`. -/
theorem C4_counterexample_bitflip_throws :
    verifyPreimage "p0".data
      "6e340b9cffb37a989ca544e6bb780a2c78901d3fb33738768511a30617afa01d".data
      = .error "Invalid hex character" := by decide

open BitCaptcha in
/-- **C4 (amended).** `verifyPreimage p h` returns `true` iff the
code's hex parse of `p` succeeds and the SHA-256 of the parsed bytes
equals `h` lowercased; it returns `false` whenever the parse succeeds
and the hash differs (in particular for a single-bit change that keeps
`p` parseable); it propagates an invalid-hex error when the parse fails
(so a bit flip into a non-hex character throws rather than returning
`false`); and `createVerificationToken` returns `null` exactly when
`verifyPreimage` returns `false`, and a token `{paymentHash, preimage,
settledAt := now}` exactly when it returns `true`. -/
theorem C4_verify_preimage_amended :
    (∀ p h : JStr, verifyPreimage p h = .ok true ↔
      ∃ b, hexToBytes p = .ok b ∧ bytesToHex (sha256 b) = toLowerStr h) ∧
    (∀ (p h : JStr) (b : Bytes), hexToBytes p = .ok b →
      bytesToHex (sha256 b) ≠ toLowerStr h → verifyPreimage p h = .ok false) ∧
    (∀ (p h : JStr) (e : String), hexToBytes p = .error e →
      verifyPreimage p h = .error e) ∧
    (∀ (p h : JStr) (now : Nat),
      (createVerificationToken p h now = .ok none ↔ verifyPreimage p h = .ok false) ∧
      (∀ tok, createVerificationToken p h now = .ok (some tok) →
        verifyPreimage p h = .ok true ∧ tok = ⟨h, p, now⟩)) := by
  have hver : ∀ p h : JStr, ∀ b, hexToBytes p = .ok b →
      verifyPreimage p h = .ok (decide (bytesToHex (sha256 b) = toLowerStr h)) := by
    intro p h b hb
    simp only [verifyPreimage, hb]
    rfl
  refine ⟨fun p h => ?_, fun p h b hb hne => ?_, fun p h e he => ?_, fun p h now => ?_⟩
  · constructor
    · intro hok
      cases hb : hexToBytes p with
      | error e => rw [show verifyPreimage p h = .error e from by
          simp only [verifyPreimage, hb]; rfl] at hok; cases hok
      | ok b =>
        rw [hver p h b hb] at hok
        refine ⟨b, rfl, ?_⟩
        have := Except.ok.inj hok
        exact of_decide_eq_true this
    · rintro ⟨b, hb, hhash⟩
      rw [hver p h b hb, decide_eq_true hhash]
  · rw [hver p h b hb, decide_eq_false hne]
  · simp only [verifyPreimage, he]
    rfl
  · have hred : ∀ b, hexToBytes p = .ok b → createVerificationToken p h now =
        (if decide (bytesToHex (sha256 b) = toLowerStr h) = true
         then Except.ok (some ⟨h, p, now⟩) else Except.ok none) := by
      intro b hb
      simp only [createVerificationToken, verifyPreimage, hb]
      rfl
    constructor
    · cases hb : hexToBytes p with
      | error e =>
        have h1 : verifyPreimage p h = .error e := by
          simp only [verifyPreimage, hb]; rfl
        have h2 : createVerificationToken p h now = .error e := by
          simp only [createVerificationToken, verifyPreimage, hb]; rfl
        rw [h1, h2]
        simp
      | ok b =>
        rw [hver p h b hb, hred b hb]
        cases hd : decide (bytesToHex (sha256 b) = toLowerStr h) <;> simp
    · intro tok
      cases hb : hexToBytes p with
      | error e =>
        intro hcontra
        have h2 : createVerificationToken p h now = .error e := by
          simp only [createVerificationToken, verifyPreimage, hb]; rfl
        rw [h2] at hcontra
        cases hcontra
      | ok b =>
        rw [hver p h b hb, hred b hb]
        cases hd : decide (bytesToHex (sha256 b) = toLowerStr h)
        · intro hcontra; simp at hcontra
        · intro hsome
          simp only [if_pos rfl] at hsome
          have := Except.ok.inj hsome
          exact ⟨rfl, (Option.some.inj this).symm⟩

open BitCaptcha in
/-- Witness for C4 at the preimage `"00"`: the hash of the byte `0x00`
differs from an all-`f` payment hash, so verification returns false and
the token is null. -/
theorem C4_verify_preimage_amended_witness :
    (hexToBytes "00".data = .ok [0] ∧
      bytesToHex (sha256 [0]) ≠ toLowerStr
        "ffffffffffffffffffffffffffffffffffffffffffffffffffffffffffffffff".data) ∧
    verifyPreimage "00".data
      "ffffffffffffffffffffffffffffffffffffffffffffffffffffffffffffffff".data
      = .ok false :=
  ⟨⟨by decide, by decide⟩,
   C4_verify_preimage_amended.2.1 "00".data
     "ffffffffffffffffffffffffffffffffffffffffffffffffffffffffffffffff".data
     [0] (by decide) (by decide)⟩

open BitCaptcha in
/-- One `onMessage` call either leaves the outbound log unchanged or
appends exactly one message (the publish or the close). -/
lemma clientStep_out (ctx : ReqCtx) (st : SendState) (m : RelayMsg) :
    (clientStep ctx st m).out = st.out ∨
    (clientStep ctx st m).out = st.out ++ [OutMsg.publish ctx.reqEvent] ∨
    (clientStep ctx st m).out = st.out ++ [OutMsg.close ctx.subId] := by
  unfold clientStep
  repeat' split
  all_goals first
    | exact Or.inl rfl
    | exact Or.inr (Or.inl rfl)
    | exact Or.inr (Or.inr rfl)

open BitCaptcha in
/-- A message that is not an EOSE for this subscription never publishes
and never flips the EOSE flag. -/
lemma clientStep_no_pub (ctx : ReqCtx) (st : SendState) (m : RelayMsg)
    (hm : ∀ sid, m = RelayMsg.eose sid → sid ≠ ctx.subId) :
    (clientStep ctx st m).eoseReceived = st.eoseReceived ∧
    ((clientStep ctx st m).out = st.out ∨
     (clientStep ctx st m).out = st.out ++ [OutMsg.close ctx.subId]) := by
  cases m with
  | eose sid =>
    have hne : ¬ (sid = ctx.subId ∧ ¬ st.eoseReceived = true) :=
      fun h => hm sid rfl h.1
    unfold clientStep
    split
    · exact ⟨rfl, Or.inl rfl⟩
    · dsimp only
      rw [if_neg hne]
      exact ⟨rfl, Or.inl rfl⟩
  | event sid ev =>
    cases ev with
    | none =>
      unfold clientStep
      dsimp only
      split <;> exact ⟨rfl, Or.inl rfl⟩
    | some e =>
      unfold clientStep
      dsimp only
      repeat' split
      all_goals first
        | exact ⟨rfl, Or.inl rfl⟩
        | exact ⟨rfl, Or.inr rfl⟩
  | okMsg i a =>
    unfold clientStep
    split <;> exact ⟨rfl, Or.inl rfl⟩
  | notice t =>
    unfold clientStep
    split <;> exact ⟨rfl, Or.inl rfl⟩
  | other =>
    unfold clientStep
    split <;> exact ⟨rfl, Or.inl rfl⟩

open BitCaptcha in
/-- Along any run the outbound log only grows. -/
lemma clientRun_out_mono (ctx : ReqCtx) :
    ∀ (msgs : List RelayMsg) (st : SendState),
      ∃ added, (List.foldl (clientStep ctx) st msgs).out = st.out ++ added := by
  intro msgs
  induction msgs with
  | nil => exact fun st => ⟨[], (List.append_nil _).symm⟩
  | cons m ms ih =>
    intro st
    obtain ⟨a2, h2⟩ := ih (clientStep ctx st m)
    rcases clientStep_out ctx st m with h1 | h1 | h1
    · exact ⟨a2, by rw [List.foldl_cons, h2, h1]⟩
    · exact ⟨[OutMsg.publish ctx.reqEvent] ++ a2,
        by rw [List.foldl_cons, h2, h1, List.append_assoc]⟩
    · exact ⟨[OutMsg.close ctx.subId] ++ a2,
        by rw [List.foldl_cons, h2, h1, List.append_assoc]⟩

open BitCaptcha in
/-- If no EOSE for this subscription is delivered, the EOSE flag stays
down and nothing is ever published. -/
lemma clientRun_no_pub (ctx : ReqCtx) :
    ∀ (msgs : List RelayMsg) (st : SendState),
      (∀ sid, RelayMsg.eose sid ∈ msgs → sid ≠ ctx.subId) →
      st.eoseReceived = false → (∀ ev, OutMsg.publish ev ∉ st.out) →
      (List.foldl (clientStep ctx) st msgs).eoseReceived = false ∧
      ∀ ev, OutMsg.publish ev ∉ (List.foldl (clientStep ctx) st msgs).out := by
  intro msgs
  induction msgs with
  | nil => exact fun st _ he hp => ⟨he, hp⟩
  | cons m ms ih =>
    intro st h he hp
    rw [List.foldl_cons]
    have hm : ∀ sid, m = RelayMsg.eose sid → sid ≠ ctx.subId := by
      intro sid hmeq
      refine h sid ?_
      rw [← hmeq]
      exact List.mem_cons_self m ms
    obtain ⟨heq, hout⟩ := clientStep_no_pub ctx st m hm
    refine ih (clientStep ctx st m) (fun sid hsid => h sid (List.mem_cons_of_mem m hsid))
      (by rw [heq, he]) ?_
    intro ev hev
    rcases hout with ho | ho
    · exact hp ev (ho ▸ hev)
    · rw [ho] at hev
      rcases List.mem_append.1 hev with h1 | h1
      · exact hp ev h1
      · simp at h1

open BitCaptcha in
/-- **C2 counterexample.** The claim says a response event delivered
before the EOSE acknowledgment is ignored until the acknowledgment
arrives.  In the trace that delivers a valid matching response event
and never delivers any EOSE, the handler resolves immediately (the
EVENT branch never consults `eoseReceived`): the run ends settled with
the EOSE flag still down, and the request is never published. -/
theorem C2_counterexample_pre_eose_response_accepted :
    clientRun ⟨"s1".data, ⟨"rid".data, "cpk".data, 23194, [], "enc".data⟩,
        "wpk".data, fun _ => .ok "resp".data⟩
      [.event "s1".data (some ⟨"evid".data, "wpk".data, 23195,
        [["e".data, "rid".data]], "payload".data⟩)] =
    ⟨false, some (.ok "resp".data), [.req "s1".data, .close "s1".data]⟩ := by
  rfl

open BitCaptcha in
/-- **C2 (amended).** In every execution of `sendRequest`: (1) the
`["REQ", subId, filter]` subscription is the first socket message, so
it precedes any publish; (2) the request event is published only after
an `["EOSE", subId]` acknowledgment for this subscription id — if no
such acknowledgment is delivered, nothing is ever published and the
EOSE flag stays down; but (3) a valid matching response event is
decrypted and resolved as soon as it arrives, regardless of whether the
acknowledgment has been received — pre-acknowledgment responses are
accepted, not ignored. -/
theorem C2_request_flow_amended :
    ∀ (ctx : ReqCtx) (msgs : List RelayMsg),
      (∃ rest, (clientRun ctx msgs).out = OutMsg.req ctx.subId :: rest) ∧
      ((∀ sid, RelayMsg.eose sid ∈ msgs → sid ≠ ctx.subId) →
        (clientRun ctx msgs).eoseReceived = false ∧
        ∀ ev, OutMsg.publish ev ∉ (clientRun ctx msgs).out) ∧
      (∀ (st : SendState) (ev : ClientEvent) (t : List JStr),
        st.settled = none →
        ev.kind = 23195 → ev.pubkey = ctx.walletPubkey →
        ev.tags.find? (fun tg => tg.headD [] == "e".data) = some t →
        t.getD 1 [] = ctx.reqEvent.id →
        clientStep ctx st (.event ctx.subId (some ev)) =
          { st with
             settled := some (ctx.decrypt ev.content),
             out := st.out ++ [.close ctx.subId] }) := by
  intro ctx msgs
  refine ⟨?_, ?_, ?_⟩
  · obtain ⟨added, h⟩ := clientRun_out_mono ctx msgs (clientInit ctx)
    exact ⟨added, h⟩
  · intro h
    exact clientRun_no_pub ctx msgs (clientInit ctx) h rfl
      (fun ev hev => by simp [clientInit] at hev)
  · intro st ev t hst hkind hpk hfind htag
    have hcond : ¬ (st.settled.isSome = true) := by rw [hst]; exact fun h => nomatch h
    have hfind2 : List.find? (fun tg => tg.headD [] == [Char.ofNat 101]) ev.tags = some t :=
      hfind
    simp only [clientStep]
    rw [if_neg hcond, if_pos trivial,
      if_neg (by rw [hkind]; exact fun h => h rfl),
      if_neg (by rw [hpk]; exact fun h => h rfl), hfind2]
    dsimp only
    rw [if_neg (by rw [htag]; exact fun h => h rfl)]
    rcases hdec : ctx.decrypt ev.content with e | d <;> rfl

open BitCaptcha in
/-- Witness for C2 (amended): a run receiving only a foreign EOSE stays
unpublished with the flag down; a concrete valid response event settles
a fresh state immediately (flag still down). -/
theorem C2_request_flow_amended_witness :
    ((clientRun ⟨"s1".data, ⟨"rid".data, "cpk".data, 23194, [], "enc".data⟩,
          "wpk".data, fun _ => Except.ok "r".data⟩ [RelayMsg.eose "x".data]).eoseReceived
        = false ∧
      ∀ ev, OutMsg.publish ev ∉
        (clientRun ⟨"s1".data, ⟨"rid".data, "cpk".data, 23194, [], "enc".data⟩,
          "wpk".data, fun _ => Except.ok "r".data⟩ [RelayMsg.eose "x".data]).out) ∧
    clientStep ⟨"s1".data, ⟨"rid".data, "cpk".data, 23194, [], "enc".data⟩,
        "wpk".data, fun _ => Except.ok "r".data⟩ ⟨false, none, []⟩
      (RelayMsg.event "s1".data
        (some ⟨"evid".data, "wpk".data, 23195, [["e".data, "rid".data]], "pl".data⟩)) =
      ⟨false, some (Except.ok "r".data), [OutMsg.close "s1".data]⟩ := by
  constructor
  · exact (C2_request_flow_amended
      ⟨"s1".data, ⟨"rid".data, "cpk".data, 23194, [], "enc".data⟩,
        "wpk".data, fun _ => Except.ok "r".data⟩ [RelayMsg.eose "x".data]).2.1
      (by intro sid h; simp at h; subst h; decide)
  · have h := (C2_request_flow_amended
      ⟨"s1".data, ⟨"rid".data, "cpk".data, 23194, [], "enc".data⟩,
        "wpk".data, fun _ => Except.ok "r".data⟩ []).2.2
      ⟨false, none, []⟩
      ⟨"evid".data, "wpk".data, 23195, [["e".data, "rid".data]], "pl".data⟩
      ["e".data, "rid".data] rfl rfl rfl (by decide) rfl
    rw [h]
    rfl

/-- A bitwise or of naturals vanishes exactly when both sides do. -/
lemma lor_eq_zero_iff (x y : Nat) : x ||| y = 0 ↔ x = 0 ∧ y = 0 := by
  constructor
  · intro h
    constructor
    · by_contra hx
      obtain ⟨i, hi⟩ := Nat.ne_zero_implies_bit_true hx
      have h2 : (x ||| y).testBit i = true := by simp [Nat.testBit_lor, hi]
      rw [h] at h2
      simp at h2
    · by_contra hy
      obtain ⟨i, hi⟩ := Nat.ne_zero_implies_bit_true hy
      have h2 : (x ||| y).testBit i = true := by simp [Nat.testBit_lor, hi]
      rw [h] at h2
      simp at h2
  · rintro ⟨rfl, rfl⟩
    rfl

/-- The or-accumulator of the constant-time loop vanishes exactly when
the seed and every element vanish. -/
lemma foldl_or_eq_zero (l : List Nat) :
    ∀ acc, (l.foldl (fun d x => d ||| x) acc = 0 ↔ acc = 0 ∧ ∀ x ∈ l, x = 0) := by
  induction l with
  | nil => intro acc; simp
  | cons x xs ih =>
    intro acc
    rw [List.foldl_cons, ih (acc ||| x)]
    rw [lor_eq_zero_iff]
    constructor
    · rintro ⟨⟨h1, h2⟩, h3⟩
      exact ⟨h1, by simpa [h2] using h3⟩
    · rintro ⟨h1, h2⟩
      exact ⟨⟨h1, h2 x (List.mem_cons_self x xs)⟩,
        fun y hy => h2 y (List.mem_cons_of_mem x hy)⟩

/-- Pointwise-vanishing xors of equal-length byte lists mean equality. -/
lemma zipWith_xor_eq_zero_iff :
    ∀ (a b : List Nat), a.length = b.length →
      ((∀ x ∈ List.zipWith (fun x y => x ^^^ y) a b, x = 0) ↔ a = b) := by
  intro a
  induction a with
  | nil =>
    intro b hb
    cases b with
    | nil => simp
    | cons y ys => simp at hb
  | cons x xs ih =>
    intro b hb
    cases b with
    | nil => simp at hb
    | cons y ys =>
      simp only [List.zipWith_cons_cons, List.mem_cons, List.cons.injEq]
      rw [List.length_cons, List.length_cons] at hb
      constructor
      · intro h
        have hx : x ^^^ y = 0 := h _ (Or.inl rfl)
        refine ⟨Nat.xor_eq_zero.1 hx, (ih ys (by omega)).1 ?_⟩
        intro z hz
        exact h z (Or.inr hz)
      · rintro ⟨rfl, rfl⟩
        intro z hz
        rcases hz with hz | hz
        · rw [hz]; exact Nat.xor_self _
        · exact ((ih _ rfl).2 rfl) z hz

open BitCaptcha in
/-- `constantTimeEqual` decides equality of byte lists: it returns true
exactly on equal lists, however many positions differ. -/
lemma constantTimeEqual_iff (a b : Bytes) : constantTimeEqual a b = true ↔ a = b := by
  unfold constantTimeEqual
  by_cases hl : a.length = b.length
  · rw [if_neg (by simp [hl])]
    rw [beq_iff_eq, foldl_or_eq_zero]
    constructor
    · rintro ⟨-, h⟩
      exact (zipWith_xor_eq_zero_iff a b hl).1 h
    · intro h
      exact ⟨rfl, (zipWith_xor_eq_zero_iff a b hl).2 h⟩
  · rw [if_pos (by simpa using hl)]
    constructor
    · intro h
      exact absurd h (by simp)
    · intro h
      exact absurd (congrArg List.length h) hl

/-- Bind of an `Except.ok` reduces to the continuation. -/
lemma ok_bind {α β : Type} (v : α) (f : α → Except String β) :
    (Except.ok v >>= f : Except String β) = f v := rfl

open BitCaptcha in
/-- **C5.** The decryption error paths of `nip44Decrypt`: "Unknown
version" for the empty payload and for any `#`-prefixed payload;
"Invalid payload size" when the encoded length leaves [132, 87472];
"Invalid data size" when the base64-decoded length leaves [99, 65603];
"Unknown version n" when the version byte is not 2; "Invalid MAC",
decided by the constant-time comparison (which returns true exactly on
equal byte lists, however many bytes differ), when the recomputed tag
over nonce-then-ciphertext differs from the attached tag; and only
otherwise the ChaCha20-decrypted, unpadded plaintext. -/
theorem C5_decrypt_error_paths :
    (∀ ck, nip44Decrypt [] ck = .error "Unknown version") ∧
    (∀ p ck, p.headD ' ' = '#' →
      nip44Decrypt p ck = .error "Unknown version") ∧
    (∀ p ck, ¬ (p.length = 0 ∨ p.headD ' ' = '#') →
      (p.length < 132 ∨ p.length > 87472) →
      nip44Decrypt p ck = .error "Invalid payload size") ∧
    (∀ (a b : Bytes), constantTimeEqual a b = true ↔ a = b) ∧
    (∀ p ck d, ¬ (p.length = 0 ∨ p.headD ' ' = '#') →
      ¬ (p.length < 132 ∨ p.length > 87472) →
      atob p = some d →
      ((d.length < 99 ∨ d.length > 65603 →
          nip44Decrypt p ck = .error "Invalid data size") ∧
       (¬ (d.length < 99 ∨ d.length > 65603) → d.headD 0 ≠ 2 →
          nip44Decrypt p ck = .error ("Unknown version " ++ toString (d.headD 0))) ∧
       (∀ keys mac2,
          ¬ (d.length < 99 ∨ d.length > 65603) → d.headD 0 = 2 →
          getMessageKeys ck ((d.drop 1).take 32) = .ok keys →
          hmacAad keys.hmacKey ((d.drop 33).take (d.length - 32 - 33))
            ((d.drop 1).take 32) = .ok mac2 →
          (mac2 ≠ d.drop (d.length - 32) →
            nip44Decrypt p ck = .error "Invalid MAC") ∧
          (mac2 = d.drop (d.length - 32) →
            nip44Decrypt p ck =
              unpad (chacha20 keys.chachaKey keys.chaChaNonce
                ((d.drop 33).take (d.length - 32 - 33))))))) := by
  refine ⟨fun ck => rfl, ?_, ?_, constantTimeEqual_iff, ?_⟩
  · intro p ck hhead
    simp only [nip44Decrypt, if_pos (Or.inr hhead)]
    rfl
  · intro p ck h1 h2
    simp only [nip44Decrypt, if_neg h1, if_pos h2]
    rfl
  · intro p ck d h1 h2 hatob
    refine ⟨?_, ?_, ?_⟩
    · intro h3
      simp only [nip44Decrypt, if_neg h1, if_neg h2, hatob, pure_bind, if_pos h3]
      rfl
    · intro h3 h4
      simp only [nip44Decrypt, if_neg h1, if_neg h2, hatob, pure_bind, if_neg h3,
        if_pos h4]
      rfl
    · intro keys mac2 h3 h4 hkeys hmac2
      have h4' : ¬ (d.headD 0 ≠ 2) := fun h => h h4
      constructor
      · intro hne
        have hcte : ¬ (constantTimeEqual mac2 (d.drop (d.length - 32)) = true) :=
          fun h => hne ((constantTimeEqual_iff _ _).1 h)
        simp only [nip44Decrypt, if_neg h1, if_neg h2, hatob, pure_bind, if_neg h3,
          if_neg h4', hkeys, hmac2, ok_bind, if_pos hcte]
        rfl
      · intro heq
        have hcte : constantTimeEqual mac2 (d.drop (d.length - 32)) = true :=
          (constantTimeEqual_iff _ _).2 heq
        simp only [nip44Decrypt, if_neg h1, if_neg h2, hatob, pure_bind, if_neg h3,
          if_neg h4', hkeys, hmac2, ok_bind, if_neg (not_not_intro hcte)]

open BitCaptcha in
/-- Witness for C5: concrete payloads exercising the `#`-prefix guard,
the payload-size guard and the constant-time comparison. -/
theorem C5_decrypt_error_paths_witness :
    nip44Decrypt "#x".data [] = .error "Unknown version" ∧
    nip44Decrypt (List.replicate 100 'A') [] = .error "Invalid payload size" ∧
    (constantTimeEqual [1, 2] [1, 3] = true ↔ [1, 2] = [1, 3]) :=
  ⟨C5_decrypt_error_paths.2.1 "#x".data [] (by decide),
   C5_decrypt_error_paths.2.2.1 (List.replicate 100 'A') [] (by decide) (by decide),
   C5_decrypt_error_paths.2.2.2.1 [1, 2] [1, 3]⟩

open BitCaptcha in
/-- The success path of `nip44Decrypt` in normal form: with every guard
passing and the recomputed tag matching, the result is the unpadded
ChaCha20 decryption of the ciphertext slice. -/
lemma nip44Decrypt_ok_form (p : List Char) (ck d : Bytes) (keys : MessageKeys)
    (mac2 : Bytes)
    (h1 : ¬ (p.length = 0 ∨ p.headD ' ' = '#'))
    (h2 : ¬ (p.length < 132 ∨ p.length > 87472))
    (hatob : atob p = some d)
    (h3 : ¬ (d.length < 99 ∨ d.length > 65603))
    (h4 : ¬ (d.headD 0 ≠ 2))
    (hkeys : getMessageKeys ck ((d.drop 1).take 32) = .ok keys)
    (hmac2 : hmacAad keys.hmacKey ((d.drop 33).take (d.length - 32 - 33))
      ((d.drop 1).take 32) = .ok mac2)
    (hcte : constantTimeEqual mac2 (d.drop (d.length - 32)) = true) :
    nip44Decrypt p ck =
      unpad (chacha20 keys.chachaKey keys.chaChaNonce
        ((d.drop 33).take (d.length - 32 - 33))) := by
  simp only [nip44Decrypt, if_neg h1, if_neg h2, hatob, pure_bind, if_neg h3,
    if_neg h4, hkeys, hmac2, ok_bind, if_neg (not_not_intro hcte)]

open BitCaptcha in
/-- **C1.** For every plaintext of 1 to 65535 bytes, every 32-byte
conversation key and every 32-byte nonce, `nip44Decrypt` inverts
`nip44Encrypt`: encryption succeeds and decrypting the produced envelope
with the same conversation key returns exactly the original plaintext. -/
theorem C1_encrypt_decrypt_roundtrip :
    ∀ (pt ck nonce : Bytes),
      1 ≤ pt.length → pt.length ≤ 65535 → (∀ b ∈ pt, b < 256) →
      ck.length = 32 → nonce.length = 32 → (∀ b ∈ nonce, b < 256) →
      ∃ env, nip44Encrypt pt ck nonce = .ok env ∧
        nip44Decrypt env ck = .ok pt := by
  intro pt ck nonce hl1 hl2 hptb hck hn hnb
  set kck : Bytes := (hkdfExpand ck nonce 76).take 32 with hkck
  set knn : Bytes := ((hkdfExpand ck nonce 76).drop 32).take 12 with hknn
  set khm : Bytes := ((hkdfExpand ck nonce 76).drop 44).take 32 with hkhm
  have hkeys : getMessageKeys ck nonce = .ok ⟨kck, knn, khm⟩ := by
    rw [hkck, hknn, hkhm]
    exact getMessageKeys_ok ck nonce hck hn
  have hkcklen : kck.length = 32 := by
    rw [hkck]
    simp [List.length_take, hkdfExpand_length]
  have hknnlen : knn.length = 12 := by
    rw [hknn]
    simp [List.length_take, List.length_drop, hkdfExpand_length]
  clear_value kck knn khm
  obtain ⟨hcalc, hge, h32b, h65536⟩ := calcPaddedLen_ok pt.length hl1 hl2
  set padded : Bytes := [pt.length >>> 8 &&& 255, pt.length &&& 255] ++ pt ++
    List.replicate (specBucket pt.length - pt.length) 0 with hpadded
  have hpadOk : pad pt = .ok padded := by
    rw [hpadded]
    exact pad_ok pt hl1 hl2
  have hpaddedLen : padded.length = 2 + specBucket pt.length := by
    rw [hpadded]
    simp only [List.length_append, List.length_replicate, List.length_cons,
      List.length_nil]
    omega
  have hpaddedLt : ∀ b ∈ padded, b < 256 := by
    rw [hpadded]
    exact pad_bytes_lt pt hptb
  clear_value padded
  set ct : Bytes := chacha20 kck knn padded with hct
  have hctlen : ct.length = padded.length := by
    rw [hct]
    exact chacha20_length _ _ _ hkcklen hknnlen
  have hctlt : ∀ b ∈ ct, b < 256 := by
    rw [hct]
    exact chacha20_lt _ _ _ hpaddedLt
  clear_value ct
  set mac : Bytes := hmac khm (nonce ++ ct) with hmacdef
  have hmaclen : mac.length = 32 := by
    rw [hmacdef]
    exact hmac_length _ _
  have hmaclt : ∀ b ∈ mac, b < 256 := by
    rw [hmacdef]
    exact hmac_lt _ _
  clear_value mac
  have hmacAadOk : hmacAad khm ct nonce = .ok mac := by
    simp only [hmacAad]
    rw [if_neg (by rw [hn]; exact fun hq => hq rfl), hmacdef]
  have henc : nip44Encrypt pt ck nonce = .ok (btoa ([2] ++ nonce ++ ct ++ mac)) := by
    simp only [nip44Encrypt, hkeys, ok_bind, hpadOk]
    rw [← hct, hmacAadOk, ok_bind]
    rfl
  refine ⟨btoa ([2] ++ nonce ++ ct ++ mac), henc, ?_⟩
  have hassoc : ([2] ++ nonce ++ ct ++ mac : Bytes) = 2 :: (nonce ++ (ct ++ mac)) := by
    simp only [List.append_assoc, List.singleton_append, List.cons_append,
      List.nil_append]
  have hdb : ∀ b ∈ ([2] ++ nonce ++ ct ++ mac : Bytes), b < 256 := by
    intro b hbm
    simp only [List.mem_append, List.mem_cons, List.not_mem_nil, or_false] at hbm
    rcases hbm with ((rfl | hbm) | hbm) | hbm
    · norm_num
    · exact hnb b hbm
    · exact hctlt b hbm
    · exact hmaclt b hbm
  have hdlen : ([2] ++ nonce ++ ct ++ mac : Bytes).length = 67 + specBucket pt.length := by
    simp only [List.length_append, List.length_cons, List.length_nil, hn, hmaclen,
      hctlen, hpaddedLen]
    omega
  have hatob2 : atob (btoa ([2] ++ nonce ++ ct ++ mac)) = some ([2] ++ nonce ++ ct ++ mac) :=
    atob_btoa _ hdb
  have hplen : (btoa ([2] ++ nonce ++ ct ++ mac)).length =
      4 * ((([2] ++ nonce ++ ct ++ mac : Bytes).length + 2) / 3) := btoa_length _
  have h1 : ¬ ((btoa ([2] ++ nonce ++ ct ++ mac)).length = 0 ∨
      (btoa ([2] ++ nonce ++ ct ++ mac)).headD ' ' = '#') := by
    intro hcontra
    rcases hcontra with hc | hc
    · rw [hplen, hdlen] at hc
      omega
    · rw [show ([2] ++ nonce ++ ct ++ mac : Bytes) = 2 :: (nonce ++ ct ++ mac) from rfl,
        btoa_head] at hc
      exact absurd hc (by decide)
  have h2 : ¬ ((btoa ([2] ++ nonce ++ ct ++ mac)).length < 132 ∨
      (btoa ([2] ++ nonce ++ ct ++ mac)).length > 87472) := by
    rw [hplen, hdlen]
    omega
  have h3 : ¬ (([2] ++ nonce ++ ct ++ mac : Bytes).length < 99 ∨
      ([2] ++ nonce ++ ct ++ mac : Bytes).length > 65603) := by
    rw [hdlen]
    omega
  have h4 : ¬ (([2] ++ nonce ++ ct ++ mac : Bytes).headD 0 ≠ 2) := fun hq => hq rfl
  have hslice1 : (([2] ++ nonce ++ ct ++ mac : Bytes).drop 1).take 32 = nonce := by
    rw [hassoc]
    show (nonce ++ (ct ++ mac)).take 32 = nonce
    exact List.take_left' hn
  have hslice2 : (([2] ++ nonce ++ ct ++ mac : Bytes).drop 33).take
      (([2] ++ nonce ++ ct ++ mac : Bytes).length - 32 - 33) = ct := by
    rw [hdlen, hassoc]
    show ((nonce ++ (ct ++ mac)).drop 32).take (67 + specBucket pt.length - 32 - 33) = ct
    rw [List.drop_left' hn]
    have hlen2 : 67 + specBucket pt.length - 32 - 33 = ct.length := by
      rw [hctlen, hpaddedLen]
      omega
    rw [hlen2]
    exact List.take_left' rfl
  have hslice3 : ([2] ++ nonce ++ ct ++ mac : Bytes).drop
      (([2] ++ nonce ++ ct ++ mac : Bytes).length - 32) = mac := by
    rw [hdlen, hassoc]
    have h67 : 67 + specBucket pt.length - 32 = 32 + ct.length + 1 := by
      rw [hctlen, hpaddedLen]
      omega
    rw [h67, List.drop_succ_cons, ← List.drop_drop, List.drop_left' hn,
      List.drop_left' rfl]
  have hkeys2 : getMessageKeys ck ((([2] ++ nonce ++ ct ++ mac : Bytes).drop 1).take 32)
      = .ok ⟨kck, knn, khm⟩ := by
    rw [hslice1]
    exact hkeys
  have hmac2 : hmacAad (⟨kck, knn, khm⟩ : MessageKeys).hmacKey
      ((([2] ++ nonce ++ ct ++ mac : Bytes).drop 33).take
        (([2] ++ nonce ++ ct ++ mac : Bytes).length - 32 - 33))
      ((([2] ++ nonce ++ ct ++ mac : Bytes).drop 1).take 32) = .ok mac := by
    rw [hslice1, hslice2]
    exact hmacAadOk
  have hcte : constantTimeEqual mac (([2] ++ nonce ++ ct ++ mac : Bytes).drop
      (([2] ++ nonce ++ ct ++ mac : Bytes).length - 32)) = true := by
    rw [hslice3]
    exact (constantTimeEqual_iff mac mac).mpr rfl
  have hdec := nip44Decrypt_ok_form (btoa ([2] ++ nonce ++ ct ++ mac)) ck
    ([2] ++ nonce ++ ct ++ mac) ⟨kck, knn, khm⟩ mac h1 h2 hatob2 h3 h4 hkeys2 hmac2 hcte
  rw [hdec, hslice2]
  rw [show (⟨kck, knn, khm⟩ : MessageKeys).chachaKey = kck from rfl,
    show (⟨kck, knn, khm⟩ : MessageKeys).chaChaNonce = knn from rfl,
    hct, chacha20_involution kck knn padded hkcklen hknnlen]
  obtain ⟨p, hp, hu⟩ := unpad_pad pt hl1 hl2
  rw [hpadOk] at hp
  rw [← Except.ok.inj hp] at hu
  exact hu

open BitCaptcha in
/-- Witness for C1: a one-byte plaintext under the all-zero conversation
key and nonce round-trips. -/
theorem C1_encrypt_decrypt_roundtrip_witness :
    ∃ env, nip44Encrypt [65] (List.replicate 32 0) (List.replicate 32 0) = .ok env ∧
      nip44Decrypt env (List.replicate 32 0) = .ok [65] :=
  C1_encrypt_decrypt_roundtrip [65] (List.replicate 32 0) (List.replicate 32 0)
    (by decide) (by decide) (by decide) (by decide) (by decide) (by decide)

open BitCaptcha in
/-- **C3 counterexample.** The claim says the token delivered on the
trusted-settlement path has `settledAt` equal to the settlement time
reported in the response.  With a response reporting `settled_at = 1000`
checked at wall-clock time 2000, the delivered token carries 2000 —
`handleSettledWithoutPreimage` stamps `Date.now()/1000`, ignoring the
response's timestamp. -/
theorem C3_counterexample_settledAt_is_now :
    checkResult ⟨⟨.awaiting_payment, {}, []⟩, [], true⟩
        (some ⟨none, some 1000, none⟩) "ab".data 2000
      = .ok (⟨⟨.verified, {}, []⟩, [⟨"ab".data, [], 2000⟩], true⟩, true) ∧
    (2000 : Nat) ≠ 1000 := by decide

open BitCaptcha in
/-- **C3 (amended).** For every poll-check record carrying no usable
preimage but a settlement timestamp or a `settled`/`paid` state field,
the widget transitions to `verified` and the success callback receives a
token with an empty preimage whose `settledAt` is the widget's current
wall-clock time at verification — not the settlement time reported in
the response. -/
theorem C3_trusted_settlement_amended :
    ∀ (w : Widget) (r : LookupRecord) (hash : JStr) (now : Nat),
      (w.machine.state = .awaiting_payment ∨ w.machine.state = .webln_prompt) →
      ¬ (truthyStr r.preimage = true ∧ 0 < (r.preimage.getD []).length ∧
          ¬ allZeros (r.preimage.getD []) = true) →
      (truthyNum r.settled_at = true ∨
        toLowerStr (r.state.getD []) = "settled".data ∨
        toLowerStr (r.state.getD []) = "paid".data) →
      w.hasCallback = true →
      checkResult w (some r) hash now =
        .ok ({ w with
                machine := { w.machine with state := .verified },
                fired := w.fired ++ [⟨hash, [], now⟩] }, true) := by
  intro w r hash now hstate hno hsig hcb
  have hallow : (VALID_TRANSITIONS w.machine.state).contains .verified = true := by
    rcases hstate with h | h <;> rw [h] <;> rfl
  have hsettled : handleSettledWithoutPreimage w hash now =
      .ok { w with
             machine := { w.machine with state := .verified },
             fired := w.fired ++ [⟨hash, [], now⟩] } := by
    simp only [handleSettledWithoutPreimage, transition, if_pos hallow]
    have hmerge : mergeData w.machine.data {} = w.machine.data := rfl
    rw [hmerge]
    simp only [fireCallback, hcb, if_pos rfl]
    rfl
  simp only [checkResult]
  rw [if_neg hno]
  by_cases hnum : truthyNum r.settled_at = true
  · rw [if_pos hnum, hsettled]
    rfl
  · rcases hsig with h | h | h
    · exact absurd h hnum
    · rw [if_neg hnum, if_pos (Or.inl h), hsettled]
      rfl
    · rw [if_neg hnum, if_pos (Or.inr h), hsettled]
      rfl

open BitCaptcha in
/-- Witness for C3 (amended): the counterexample scenario, now obtained
through the amended theorem. -/
theorem C3_trusted_settlement_amended_witness :
    checkResult ⟨⟨.webln_prompt, {}, []⟩, [], true⟩
        (some ⟨some "0000".data, some 1000, none⟩) "cd".data 777
      = .ok (⟨⟨.verified, {}, []⟩, [⟨"cd".data, [], 777⟩], true⟩, true) :=
  C3_trusted_settlement_amended ⟨⟨.webln_prompt, {}, []⟩, [], true⟩
    ⟨some "0000".data, some 1000, none⟩ "cd".data 777
    (by decide) (by decide) (by decide) (by decide)

open BitCaptcha in
/-- The polling loop under an all-unsettled run: exactly `maxPolls`
checks happen and then the timeout transition fires. -/
lemma pollAux_unsettled (found : Nat → Bool) (hfound : ∀ i, found i = false)
    (maxPolls : Nat) (m : Machine) :
    ∀ fuel pc checks, pc + fuel = maxPolls + 1 → pc ≤ maxPolls →
      pollAux found maxPolls fuel pc checks m =
        ((transition m .error
            (some { error := some "Payment timeout — invoice expired".data })).1,
          checks + (maxPolls - pc)) := by
  intro fuel
  induction fuel with
  | zero => intro pc checks h1 h2; omega
  | succ f ih =>
    intro pc checks h1 h2
    by_cases hcap : maxPolls < pc + 1
    · have hpc : pc = maxPolls := by omega
      simp only [pollAux, if_pos hcap]
      rw [hpc, Nat.sub_self, Nat.add_zero]
    · have hnf : ¬ (found (pc + 1) = true) := by simp [hfound]
      simp only [pollAux, if_neg hcap, if_neg hnf]
      rw [ih (pc + 1) (checks + 1) (by omega) (by omega)]
      have harith : checks + 1 + (maxPolls - (pc + 1)) = checks + (maxPolls - pc) := by
        omega
      rw [harith]

open BitCaptcha in
/-- **C9.** In every polling run in which every poll check reports
unsettled, the reconciler performs exactly `maxPolls` checks, then stops
and transitions to `error` with the timeout message "Payment timeout —
invoice expired"; no further poll iterations run (the returned check
count is exactly `maxPolls`).  The source instantiates `maxPolls` as
`MAX_POLLS = 100` (interval variant) or `60` (sequential variant). -/
theorem C9_poll_cap_timeout :
    ∀ (maxPolls : Nat) (found : Nat → Bool) (m : Machine),
      (∀ i, found i = false) → m.state = .awaiting_payment →
      pollRun found maxPolls m =
        ({ m with
            state := .error,
            data := mergeData m.data
              { error := some "Payment timeout — invoice expired".data } },
          maxPolls) := by
  intro maxPolls found m hfound hstate
  have hallow : (VALID_TRANSITIONS m.state).contains .error = true := by
    rw [hstate]; rfl
  rw [pollRun, pollAux_unsettled found hfound maxPolls m (maxPolls + 1) 0 0
    (by omega) (by omega)]
  simp only [transition, if_pos hallow]
  norm_num

open BitCaptcha in
/-- Witness for C9 at the sequential variant's cap of 60 polls. -/
theorem C9_poll_cap_timeout_witness :
    pollRun (fun _ => false) 60 ⟨.awaiting_payment, {}, []⟩ =
      (⟨.error, { error := some "Payment timeout — invoice expired".data }, []⟩, 60) := by
  have h := C9_poll_cap_timeout 60 (fun _ => false) ⟨.awaiting_payment, {}, []⟩
    (fun _ => rfl) rfl
  rw [h]
  rfl

open BitCaptcha in
/-- **C8.** `PaymentStateMachine.transition(t, data)` throws an
"Invalid state transition" error exactly when `t` is not an allowed
target of the current state under the table idle→{invoicing},
invoicing→{awaiting_payment, error}, awaiting_payment→{webln_prompt,
verified, error}, webln_prompt→{verified, awaiting_payment, error},
verified→{}, error→{idle}; and `reset()` unconditionally forces `idle`
and empties the data bag from every state, including `verified`. -/
theorem C8_transition_table_and_reset :
    (∀ (m : Machine) (t : PaymentState) (d : Option StateData),
      (∃ e, (transition m t d).2.1 = some e) ↔
        t ∉ (match m.state with
          | .idle => [PaymentState.invoicing]
          | .invoicing => [.awaiting_payment, .error]
          | .awaiting_payment => [.webln_prompt, .verified, .error]
          | .webln_prompt => [.verified, .awaiting_payment, .error]
          | .verified => []
          | .error => [.idle])) ∧
    (∀ m : Machine, (reset m).1.state = .idle ∧ (reset m).1.data = {}) := by
  constructor
  · intro m t d
    have htab : (match m.state with
        | .idle => [PaymentState.invoicing]
        | .invoicing => [.awaiting_payment, .error]
        | .awaiting_payment => [.webln_prompt, .verified, .error]
        | .webln_prompt => [.verified, .awaiting_payment, .error]
        | .verified => []
        | .error => [.idle]) = VALID_TRANSITIONS m.state := by
      cases m.state <;> rfl
    rw [htab]
    unfold transition
    by_cases h : (VALID_TRANSITIONS m.state).contains t
    · simp [h, (contains_valid_iff m.state t).mp h]
    · have hmem : t ∉ VALID_TRANSITIONS m.state := fun hm =>
        h ((contains_valid_iff m.state t).mpr hm)
      simp [h, hmem]
  · intro m
    exact ⟨rfl, rfl⟩

open BitCaptcha in
/-- **C10.** An invalid `transition(t, data)` throws before any
mutation: the machine (state and accumulated data bag) is unchanged and
no registered listener is invoked. -/
theorem C10_invalid_transition_no_mutation :
    ∀ (m : Machine) (t : PaymentState) (d : Option StateData),
      t ∉ VALID_TRANSITIONS m.state →
      (transition m t d).1 = m ∧ (transition m t d).2.2 = [] := by
  intro m t d hmem
  have h : ¬ ((VALID_TRANSITIONS m.state).contains t = true) := fun hc =>
    hmem ((contains_valid_iff m.state t).mp hc)
  unfold transition
  rw [if_neg h]
  exact ⟨rfl, rfl⟩

open BitCaptcha in
/-- Witness for C10 at a concrete machine: `verified` is terminal, so a
transition to `idle` from it leaves the machine untouched and calls no
listener. -/
theorem C10_invalid_transition_no_mutation_witness :
    (PaymentState.idle ∉ VALID_TRANSITIONS PaymentState.verified) ∧
    (transition ⟨.verified, {}, [0, 1]⟩ .idle none).1 = ⟨.verified, {}, [0, 1]⟩ ∧
    (transition ⟨.verified, {}, [0, 1]⟩ .idle none).2.2 = [] :=
  ⟨by decide,
   C10_invalid_transition_no_mutation ⟨.verified, {}, [0, 1]⟩ .idle none (by decide)⟩
